import Mathlib

/-!
# Verification of `table.c`: a set ADT on a linear-probing hash table

Shallow embedding of `src/table.c`.

* Element references (`void *`, asserted non-NULL by every operation) are values
  of a type `α`.
* `struct set` becomes the structure `SET`; `count` is a C `int` (an `Int`
  here, it can go below zero), `length` is the `maxElts` given to `createSet`.
* `flags` is the `char` array with the values `empty`, `filled`, `deleted`;
  `data` is the array of references, a cell that was never written is `none`.
* `unsigned` arithmetic is arithmetic modulo `2 ^ 32`.
* `search` returns its `int` result together with the final value of `*found`;
  the value `*found` has on entry is a parameter, because the path that leaves
  the loop without a hit does not assign it.
* A store through an index outside `0 .. length - 1` touches no cell of the
  array (`store`); a load through such an index yields `Ptr.invalid` (`load`).
* The array `void **a` of `partition` and `quicksort` is the map from an `int`
  index to the reference in that cell.  The indices `lo`, `hi`, `i`, `sep` and
  `ploc` are `Int`: `quicksort` is `static` and entered with `0` and
  `count - 1` only, so every index it computes lies in `-1 .. length`.
* `quicksort` recurses; `quicksortFuel` bounds the depth of the recursion and
  `quicksort` runs it with the depth `hi - lo`, which is shown to suffice.
* `getElements` returns the `count` cells of its array as a list; cells that
  the code never writes hold a parameter `junk`.
-/

namespace Table

/-! ## Data model -/

/-- Flag value `#define empty 0`. -/
abbrev empty : Nat := 0

/-- Flag value `#define filled 1`. -/
abbrev filled : Nat := 1

/-- Flag value `#define deleted 2`. -/
abbrev deleted : Nat := 2

/-- The record `struct set`. -/
structure SET (α : Type) where
  count : Int
  length : Nat
  data : List (Option α)
  flags : List Nat
  compare : α → α → Int
  hash : α → Nat

/-- Values a `void *` result can take: `NULL`, a stored reference, or the
indeterminate content of `data[idx]` when `idx` is outside the array or the
cell was never written. -/
inductive Ptr (α : Type) where
  | null : Ptr α
  | ref (a : α) : Ptr α
  | invalid (idx : Int) : Ptr α
  deriving DecidableEq, Repr

/-- Array store `a[idx] = v` with an `int` index: a store outside the array
leaves every cell of the array as it was. -/
def store {β : Type} (a : List β) (idx : Int) (v : β) : List β :=
  if 0 ≤ idx then a.set idx.toNat v else a

/-- Array load `data[idx]` with an `int` index. -/
def load {α : Type} (a : List (Option α)) (idx : Int) : Ptr α :=
  if 0 ≤ idx then
    match a.getD idx.toNat none with
    | some r => Ptr.ref r
    | none => Ptr.invalid idx
  else Ptr.invalid idx

/-! ## Operations -/

/-- Function `createSet`: `count = 0`, `length = maxElts`, every flag `empty`,
the `data` cells not written. -/
def createSet {α : Type} (maxElts : Nat) (compare : α → α → Int) (hash : α → Nat) : SET α :=
  { count := 0
    length := maxElts
    data := List.replicate maxElts none
    flags := List.replicate maxElts empty
    compare := compare
    hash := hash }

/-- Function `numElements`. -/
def numElements {α : Type} (sp : SET α) : Int := sp.count

/-- Slot examined by `search` on attempt `i`:
`((sp->hash)(elt) + i) % sp->length` in `unsigned` arithmetic. -/
def probe {α : Type} (sp : SET α) (elt : α) (i : Nat) : Nat :=
  (sp.hash elt + i) % 4294967296 % sp.length

/-- Test `(*sp->compare)(elt, sp->data[hash]) == 0` of `search`. -/
def matchesAt {α : Type} (sp : SET α) (elt : α) (slot : Nat) : Bool :=
  match sp.data.getD slot none with
  | some d => decide (sp.compare elt d = 0)
  | none => false

/-- The `for` loop of `search` with `n` iterations left, loop counter `i` and
remembered tombstone `x`; `found` is the value of `*found` on entry. -/
def searchLoop {α : Type} (sp : SET α) (elt : α) (found : Bool) : Nat → Nat → Int → Int × Bool
  | 0, _, _ => (-1, found)
  | n + 1, i, x =>
    let hash := probe sp elt i
    if sp.flags.getD hash empty = empty then
      (if x ≠ -1 then x else (hash : Int), false)
    else if sp.flags.getD hash empty = filled ∧ matchesAt sp elt hash = true then
      ((hash : Int), true)
    else if sp.flags.getD hash empty = deleted ∧ x = -1 then
      searchLoop sp elt found n (i + 1) (hash : Int)
    else
      searchLoop sp elt found n (i + 1) x

/-- Function `search`: the returned index and the value of `*found` after the
call, `found` being its value before. -/
def search {α : Type} (sp : SET α) (elt : α) (found : Bool) : Int × Bool :=
  searchLoop sp elt found sp.length 0 (-1)

/-- Function `addElement`. -/
def addElement {α : Type} (sp : SET α) (elt : α) : SET α :=
  let r := search sp elt true
  if sp.count = (sp.length : Int) then sp
  else if r.2 = false then
    { sp with
      data := store sp.data r.1 (some elt)
      flags := store sp.flags r.1 filled
      count := sp.count + 1 }
  else sp

/-- Function `removeElement`. -/
def removeElement {α : Type} (sp : SET α) (elt : α) : SET α :=
  let r := search sp elt true
  if r.2 = true then
    { sp with
      flags := store sp.flags r.1 deleted
      count := sp.count - 1 }
  else sp

/-- Function `findElement`. -/
def findElement {α : Type} (sp : SET α) (elt : α) : Ptr α :=
  let r := search sp elt true
  if r.2 = true then load sp.data r.1 else Ptr.null

/-! ## Specification vocabulary -/

/-- Number of slots whose flag is `filled`. -/
def filledCount {α : Type} (sp : SET α) : Nat :=
  ((List.range sp.length).filter (fun s => sp.flags.getD s empty = filled)).length

/-- Slot `s` is inside the table, is `filled` and holds the reference `r`. -/
def Holds {α : Type} (sp : SET α) (s : Nat) (r : α) : Prop :=
  s < sp.length ∧ sp.flags.getD s empty = filled ∧ sp.data.getD s none = some r

/-- The states a client can produce: `createSet` followed by any finite
sequence of `addElement` and `removeElement` calls. -/
inductive Reachable {α : Type} (maxElts : Nat) (compare : α → α → Int) (hash : α → Nat) :
    SET α → Prop where
  | create : Reachable maxElts compare hash (createSet maxElts compare hash)
  | add {sp : SET α} (elt : α) :
      Reachable maxElts compare hash sp → Reachable maxElts compare hash (addElement sp elt)
  | remove {sp : SET α} (elt : α) :
      Reachable maxElts compare hash sp → Reachable maxElts compare hash (removeElement sp elt)

/-- Contract of the two callbacks: `compare a b = 0` is an equivalence relation
and `hash` gives equal values to elements that compare equal. -/
structure Lawful {α : Type} (compare : α → α → Int) (hash : α → Nat) : Prop where
  refl : ∀ a, compare a a = 0
  symm : ∀ a b, compare a b = 0 → compare b a = 0
  trans : ∀ a b c, compare a b = 0 → compare b c = 0 → compare a c = 0
  hash_eq : ∀ a b, compare a b = 0 → hash a = hash b

/-- Numeric comparator on `Nat` references, used for concrete runs. -/
def natCompare (a b : Nat) : Int := (a : Int) - (b : Int)

/-- Identity hash on `Nat` references, used for concrete runs. -/
def natHash (a : Nat) : Nat := a

/-- State written by `addElement` when `search` returned slot `p` with
`*found == false`. -/
def inserted {α : Type} (sp : SET α) (p : Nat) (elt : α) : SET α :=
  { sp with
    data := sp.data.set p (some elt)
    flags := sp.flags.set p filled
    count := sp.count + 1 }

/-- State written by `removeElement` when `search` returned slot `p` with
`*found == true`. -/
def tombstoned {α : Type} (sp : SET α) (p : Nat) : SET α :=
  { sp with
    flags := sp.flags.set p deleted
    count := sp.count - 1 }

/-- Comparator that orders `Nat` references by their value modulo 10, used to
run the table with distinct references that compare equal. -/
def lastDigitCompare (a b : Nat) : Int := ((a % 10 : Nat) : Int) - ((b % 10 : Nat) : Int)

/-- Hash that agrees on references equal under `lastDigitCompare`. -/
def lastDigitHash (a : Nat) : Nat := a % 10

/-- Concrete run: capacity 1, `addElement 7` then `removeElement 7`; the only
slot is a tombstone and `count` is 0. -/
def tombstoneOnly : SET Nat :=
  removeElement (addElement (createSet 1 natCompare natHash) 7) 7

/-- Concrete run: capacity 2, 1 and 2 inserted and both removed again; both
slots are tombstones and `count` is 0. -/
def twoTombstones : SET Nat :=
  removeElement (removeElement (addElement (addElement (createSet 2 natCompare natHash) 1) 2) 1) 2

/-- Concrete run: capacity 3, then `addElement` of 3, 4 and 4294967295, whose
hash values are 3, 4 and `2 ^ 32 - 1`. -/
def wrappedInsert : SET Nat :=
  addElement (addElement (addElement (createSet 3 natCompare natHash) 3) 4) 4294967295

/-- Concrete run: capacity 2 holding 2 (slot 0) and 4 (slot 1); both hash to
origin 0. -/
def fullPair : SET Nat :=
  addElement (addElement (createSet 2 natCompare natHash) 2) 4

/-! ## The sort

The array parameter `void **a` of `partition` and `quicksort` carries no
length: it is modelled by the map from an `int` index to the reference in that
cell.  The caller's array is a segment of that map. -/

/-- Exchange of the cells `i` and `j`, in the order of the source:
`temp = a[i]; a[i] = a[j]; a[j] = temp`. -/
def swap {α : Type} (a : Int → α) (i j : Int) : Int → α :=
  Function.update (Function.update a i (a j)) j (a i)

/-- The `for` loop of `partition` with `n` iterations left, loop counter `i`,
boundary `sep` and pivot `x`; it returns the array and the final `sep`. -/
def partitionLoop {α : Type} (compare : α → α → Int) (x : α) :
    Nat → Int → Int → (Int → α) → (Int → α) × Int
  | 0, _, sep, a => (a, sep)
  | n + 1, i, sep, a =>
    if compare (a i) x < 0 then
      partitionLoop compare x n (i + 1) (sep + 1) (swap a i sep)
    else
      partitionLoop compare x n (i + 1) sep a

/-- Function `partition`: the array after the call and the returned pivot
location. -/
def partition {α : Type} (a : Int → α) (lo hi : Int) (compare : α → α → Int) :
    (Int → α) × Int :=
  let x := a hi
  let r := partitionLoop compare x (hi - lo).toNat lo lo a
  (swap r.1 hi r.2, r.2)

/-- Function `quicksort` run with a bound `fuel` on the depth of the recursion;
`none` means that the bound was reached. -/
def quicksortFuel {α : Type} (compare : α → α → Int) :
    Nat → (Int → α) → Int → Int → Option (Int → α)
  | 0, a, lo, hi => if lo < hi then none else some a
  | fuel + 1, a, lo, hi =>
    if lo < hi then
      let r := partition a lo hi compare
      match quicksortFuel compare fuel r.1 lo (r.2 - 1) with
      | none => none
      | some a1 => quicksortFuel compare fuel a1 (r.2 + 1) hi
    else some a

/-- Function `quicksort`: the array after the call.  The depth of the recursion
never exceeds `hi - lo`. -/
def quicksort {α : Type} (a : Int → α) (lo hi : Int) (compare : α → α → Int) : Int → α :=
  (quicksortFuel compare (hi - lo).toNat a lo hi).getD a

/-- The `n` cells `a[lo], ..., a[lo + n - 1]` read off as a list. -/
def segment {α : Type} (a : Int → α) (lo : Int) (n : Nat) : List α :=
  (List.range n).map (fun (j : Nat) => a (lo + (j : Int)))

/-- The array whose first cells hold the list `l`; every other cell holds
`junk`, the indeterminate content of memory that was not written. -/
def ofList {α : Type} (junk : α) (l : List α) : Int → α :=
  fun i => if 0 ≤ i then l.getD i.toNat junk else junk

/-- The loop of `getElements`: the references of the `filled` slots in slot
order, as `elts[j++] = sp->data[i]` writes them.  A `data` cell that was never
written contributes `junk`. -/
def compact {α : Type} (sp : SET α) (junk : α) : List α :=
  (List.range sp.length).filterMap (fun i =>
    if sp.flags.getD i empty = filled then some ((sp.data.getD i none).getD junk) else none)

/-- Function `getElements`: the `count` cells of the array it returns.  `junk`
is the content of the cells that `malloc` returned and the loop did not
write. -/
def getElements {α : Type} (sp : SET α) (junk : α) : List α :=
  let elts := ofList junk (compact sp junk)
  segment (quicksort elts 0 (sp.count - 1) sp.compare) 0 sp.count.toNat

/-- The array `b` is the array `a` with the cells `lo .. hi` rearranged: `b`
reads `a` through a permutation of the indices that moves no index outside
`lo .. hi`. -/
def Rearranged {α : Type} (a b : Int → α) (lo hi : Int) : Prop :=
  ∃ σ : Equiv.Perm Int, (∀ k, k < lo ∨ hi < k → σ k = k) ∧ b = a ∘ σ

/-- The segment `a[lo..hi]` is in non-decreasing order:
`compare(a[j], a[i]) >= 0` whenever `lo <= i < j <= hi`. -/
def SortedSeg {α : Type} (compare : α → α → Int) (a : Int → α) (lo hi : Int) : Prop :=
  ∀ i j, lo ≤ i → i < j → j ≤ hi → 0 ≤ compare (a j) (a i)

/-- The comparator is a strict order: `compare x y < 0` is irreflexive and
transitive. -/
structure StrictOrder {α : Type} (compare : α → α → Int) : Prop where
  irrefl : ∀ a, ¬ compare a a < 0
  trans : ∀ a b c, compare a b < 0 → compare b c < 0 → compare a c < 0

/-- The comparator is a strict total order: a strict order in which any two
elements are ordered one way or the other or compare equal. -/
structure TotalOrder {α : Type} (compare : α → α → Int) extends StrictOrder compare : Prop where
  total : ∀ a b, compare a b < 0 ∨ compare a b = 0 ∨ compare b a < 0

/-- Comparator that is no order at all: it calls every element smaller than
every other, itself included. -/
def alwaysLess (_ _ : Nat) : Int := -1

/-- Concrete run: capacity 5 with the identity hash, after `addElement` of 5,
3, 9 and 1. -/
def smallSet : SET Nat :=
  addElement (addElement (addElement (addElement (createSet 5 natCompare natHash) 5) 3) 9) 1

/-- Concrete run: capacity 7 with the last-digit hash, after `addElement` of 1,
9, 4, `removeElement 4`, then `addElement` of 3 and 5. -/
def otherHistory : SET Nat :=
  addElement (addElement (removeElement (addElement (addElement (addElement
    (createSet 7 natCompare lastDigitHash) 1) 9) 4) 4) 3) 5

/-- Concrete run: capacity 3, `addElement` of 3 and 6 (which collide), then
`removeElement 3`: slot 0 is a tombstone, slot 1 holds 6, slot 2 is empty. -/
def tombstoneThenSix : SET Nat :=
  removeElement (addElement (addElement (createSet 3 natCompare natHash) 3) 6) 3

/-- Concrete run: capacity 1 holding 7; the table is full. -/
def fullSingle : SET Nat :=
  addElement (createSet 1 natCompare natHash) 7

/-- The part of the representation invariant that holds for any callbacks: the
arrays have `length` cells and every reference in a `filled` slot lies on its
own probe path behind non-`empty` slots only. -/
structure PathInv {α : Type} (sp : SET α) : Prop where
  flags_len : sp.flags.length = sp.length
  data_len : sp.data.length = sp.length
  path : ∀ s r, Holds sp s r → ∃ i, i < sp.length ∧ probe sp r i = s ∧
    ∀ j, j < i → sp.flags.getD (probe sp r j) empty ≠ empty

/-- The comparator's `compare a b = 0` is an equivalence relation, as it is for
every total order whose 0 means equal. -/
structure EquivCompare {α : Type} (compare : α → α → Int) : Prop where
  refl : ∀ a, compare a a = 0
  symm : ∀ a b, compare a b = 0 → compare b a = 0
  trans : ∀ a b c, compare a b = 0 → compare b c = 0 → compare a c = 0

/-- Concrete run with a hash that does not agree with the comparator: capacity
4, last-digit comparator, identity hash, after `addElement 7`. -/
def sevenByIdentityHash : SET Nat :=
  addElement (createSet 4 lastDigitCompare natHash) 7

/-- Concrete run with a hash that does not agree with the comparator: capacity
4, last-digit comparator, identity hash, after `addElement` of 7, 17 and 5;
17 sits in slot 1 and 5 behind it in slot 2. -/
def mixedHashSet : SET Nat :=
  addElement (addElement (addElement (createSet 4 lastDigitCompare natHash) 7) 17) 5

/-- Postcondition of `search`, with `fnd` the value of `*found` on entry: the
loop ran out (`-1`, `*found` untouched), or it stopped on a `filled` slot whose
element compares equal, or it stopped on an `empty` slot and returns a slot of
the probe path that is not `filled` and is preceded on the path by non-`empty`
slots only. -/
def SearchPost {α : Type} (sp : SET α) (elt : α) (fnd : Bool) (r : Int × Bool) : Prop :=
  r = (-1, fnd) ∨
  (r.2 = true ∧ ∃ j, j < sp.length ∧ r.1 = (probe sp elt j : Int) ∧
      sp.flags.getD (probe sp elt j) empty = filled ∧ matchesAt sp elt (probe sp elt j) = true) ∨
  (r.2 = false ∧ ∃ j, j < sp.length ∧ r.1 = (probe sp elt j : Int) ∧
      sp.flags.getD (probe sp elt j) empty ≠ filled ∧
      ∀ k, k < j → sp.flags.getD (probe sp elt k) empty ≠ empty)

/-- Representation invariant of the table: the arrays have `length` cells, a
`filled` slot holds a written reference that lies on its own probe path behind
non-`empty` slots only, and two different `filled` slots never hold elements
that compare equal. -/
structure Inv {α : Type} (sp : SET α) : Prop where
  flags_len : sp.flags.length = sp.length
  data_len : sp.data.length = sp.length
  written : ∀ s, s < sp.length → sp.flags.getD s empty = filled →
    ∃ r, sp.data.getD s none = some r
  path : ∀ s r, Holds sp s r → ∃ i, i < sp.length ∧ probe sp r i = s ∧
    ∀ j, j < i → sp.flags.getD (probe sp r j) empty ≠ empty
  nodup : ∀ s t a b, Holds sp s a → Holds sp t b → sp.compare a b = 0 → s = t

/-! ## Array lemmas -/

theorem store_natCast {β : Type} (a : List β) (p : Nat) (v : β) :
    store a (p : Int) v = a.set p v := by
  simp [store]

theorem store_neg_one {β : Type} (a : List β) (v : β) : store a (-1) v = a := by
  simp [store]

theorem getD_set_self {β : Type} (a : List β) (p : Nat) (v d : β) (hp : p < a.length) :
    (a.set p v).getD p d = v := by
  simp [List.getD_eq_getElem?_getD, List.getElem?_set, hp]

theorem getD_set_ne {β : Type} (a : List β) (p q : Nat) (v d : β) (hpq : p ≠ q) :
    (a.set p v).getD q d = a.getD q d := by
  simp [List.getD_eq_getElem?_getD, List.getElem?_set, hpq]

theorem load_natCast {α : Type} (a : List (Option α)) (p : Nat) (r : α)
    (h : a.getD p none = some r) : load a (p : Int) = Ptr.ref r := by
  simp only [load, Int.toNat_ofNat, h]
  simp

theorem probe_lt {α : Type} (sp : SET α) (elt : α) (i : Nat) (h : 0 < sp.length) :
    probe sp elt i < sp.length :=
  Nat.mod_lt _ h

theorem probe_congr {α : Type} (sp sp' : SET α) (hl : sp'.length = sp.length)
    (hh : sp'.hash = sp.hash) (elt : α) (i : Nat) : probe sp' elt i = probe sp elt i := by
  simp [probe, hl, hh]

/-! ## The probe loop -/

theorem probe_linear_of_no_wrap {α : Type} (sp : SET α) (elt : α) (i : Nat)
    (h : sp.hash elt + i < 4294967296) :
    probe sp elt i = (sp.hash elt % sp.length + i) % sp.length := by
  unfold probe
  rw [Nat.mod_eq_of_lt h, Nat.add_mod, Nat.add_mod (sp.hash elt % sp.length) i,
    Nat.mod_mod]

theorem matchesAt_iff {α : Type} (sp : SET α) (elt : α) (slot : Nat) :
    matchesAt sp elt slot = true ↔
      ∃ d, sp.data.getD slot none = some d ∧ sp.compare elt d = 0 := by
  unfold matchesAt
  cases h : sp.data.getD slot none with
  | none => simp
  | some d => simp

theorem searchLoop_post {α : Type} (sp : SET α) (elt : α) (fnd : Bool) :
    ∀ (n i : Nat) (x : Int), i + n = sp.length →
      (∀ k, k < i → sp.flags.getD (probe sp elt k) empty ≠ empty) →
      (x = -1 ∨ ∃ j, j < i ∧ x = (probe sp elt j : Int) ∧
        sp.flags.getD (probe sp elt j) empty = deleted) →
      SearchPost sp elt fnd (searchLoop sp elt fnd n i x) := by
  intro n
  induction n with
  | zero =>
    intro i x _ _ _
    exact Or.inl rfl
  | succ n ih =>
    intro i x hin hpre hx
    have hi : i < sp.length := by omega
    simp only [searchLoop]
    split_ifs with h1 h2 h3 h4
    · -- empty slot reached with a tombstone remembered
      rcases hx with hx | ⟨j, hj, hxj, hdel⟩
      · exact absurd hx h2
      · refine Or.inr (Or.inr ⟨rfl, j, by omega, hxj, ?_, ?_⟩)
        · rw [hdel]; decide
        · intro k hk; exact hpre k (by omega)
    · -- empty slot reached, no tombstone remembered
      refine Or.inr (Or.inr ⟨rfl, i, hi, rfl, ?_, hpre⟩)
      rw [h1]; decide
    · exact Or.inr (Or.inl ⟨rfl, i, hi, rfl, h3.1, h3.2⟩)
    · refine ih (i + 1) _ (by omega) ?_ (Or.inr ⟨i, by omega, rfl, h4.1⟩)
      intro k hk
      rcases Nat.lt_succ_iff_lt_or_eq.mp hk with hlt | heq
      · exact hpre k hlt
      · rw [heq]; exact h1
    · refine ih (i + 1) x (by omega) ?_ ?_
      · intro k hk
        rcases Nat.lt_succ_iff_lt_or_eq.mp hk with hlt | heq
        · exact hpre k hlt
        · rw [heq]; exact h1
      · rcases hx with hx | ⟨j, hj, hxj, hdel⟩
        · exact Or.inl hx
        · exact Or.inr ⟨j, by omega, hxj, hdel⟩

theorem search_post {α : Type} (sp : SET α) (elt : α) (fnd : Bool) :
    SearchPost sp elt fnd (search sp elt fnd) := by
  unfold search
  exact searchLoop_post sp elt fnd sp.length 0 (-1) (by omega)
    (fun k hk => absurd hk (Nat.not_lt_zero k)) (Or.inl rfl)

theorem searchLoop_hit {α : Type} (sp : SET α) (elt r : α) (fnd : Bool) (s i0 : Nat)
    (hinv : Inv sp) (hL : Lawful sp.compare sp.hash) (hold : Holds sp s r)
    (he : sp.compare elt r = 0) (hi0 : i0 < sp.length) (hs : probe sp elt i0 = s)
    (hpre : ∀ j, j < i0 → sp.flags.getD (probe sp elt j) empty ≠ empty) :
    ∀ (n i : Nat) (x : Int), i + n = sp.length → i ≤ i0 →
      searchLoop sp elt fnd n i x = ((s : Int), true) := by
  have hmatch : matchesAt sp elt s = true := (matchesAt_iff sp elt s).mpr ⟨r, hold.2.2, he⟩
  intro n
  induction n with
  | zero => intro i x hin hle; omega
  | succ n ih =>
    intro i x hin hle
    have hpos : 0 < sp.length := by omega
    simp only [searchLoop]
    rcases Nat.lt_or_eq_of_le hle with hlt | heq
    · have hne := hpre i hlt
      rw [if_neg hne]
      split_ifs with h2 h3
      · obtain ⟨d, hd, hcd⟩ := (matchesAt_iff sp elt _).mp h2.2
        have hdr : sp.compare d r = 0 := hL.trans d elt r (hL.symm elt d hcd) he
        have hslot : probe sp elt i = s :=
          hinv.nodup _ _ d r ⟨probe_lt sp elt i hpos, h2.1, hd⟩ hold hdr
        rw [hslot]
      · exact ih (i + 1) _ (by omega) (by omega)
      · exact ih (i + 1) x (by omega) (by omega)
    · subst heq
      rw [hs]
      have hf : sp.flags.getD s empty = filled := hold.2.1
      have hne : ¬ sp.flags.getD s empty = empty := by rw [hf]; decide
      rw [if_neg hne, if_pos ⟨hf, hmatch⟩]

theorem search_hit {α : Type} (sp : SET α) (elt r : α) (fnd : Bool) (s : Nat)
    (hinv : Inv sp) (hL : Lawful sp.compare sp.hash) (hold : Holds sp s r)
    (he : sp.compare elt r = 0) : search sp elt fnd = ((s : Int), true) := by
  obtain ⟨i0, hi0, hs, hpre⟩ := hinv.path s r hold
  have hh : sp.hash elt = sp.hash r := hL.hash_eq elt r he
  have hp : ∀ j, probe sp elt j = probe sp r j := by intro j; simp [probe, hh]
  unfold search
  exact searchLoop_hit sp elt r fnd s i0 hinv hL hold he hi0 (by rw [hp]; exact hs)
    (fun j hj => by rw [hp]; exact hpre j hj) sp.length 0 (-1) (by omega) (Nat.zero_le _)

theorem findElement_hit {α : Type} (sp : SET α) (elt r : α) (s : Nat)
    (hinv : Inv sp) (hL : Lawful sp.compare sp.hash) (hold : Holds sp s r)
    (he : sp.compare elt r = 0) : findElement sp elt = Ptr.ref r := by
  unfold findElement
  simp only [search_hit sp elt r true s hinv hL hold he, if_true]
  exact load_natCast sp.data s r hold.2.2

/-! ## Preservation of the representation invariant -/

theorem createSet_flag {α : Type} (maxElts : Nat) (compare : α → α → Int) (hash : α → Nat)
    (s : Nat) : (createSet maxElts compare hash).flags.getD s empty = empty := by
  simp only [createSet, List.getD_eq_getElem?_getD, List.getElem?_replicate]
  split_ifs <;> rfl

theorem createSet_not_holds {α : Type} (maxElts : Nat) (compare : α → α → Int)
    (hash : α → Nat) (s : Nat) (r : α) : ¬ Holds (createSet maxElts compare hash) s r := by
  intro h
  have h1 := h.2.1
  rw [createSet_flag] at h1
  exact absurd h1 (by decide)

theorem inv_createSet {α : Type} (maxElts : Nat) (compare : α → α → Int) (hash : α → Nat) :
    Inv (createSet maxElts compare hash) where
  flags_len := by simp [createSet]
  data_len := by simp [createSet]
  written := by
    intro s _ hf
    rw [createSet_flag] at hf
    exact absurd hf (by decide)
  path := fun s r h => absurd h (createSet_not_holds maxElts compare hash s r)
  nodup := fun s _ a _ h _ _ => absurd h (createSet_not_holds maxElts compare hash s a)

theorem holds_inserted {α : Type} (sp : SET α) (p : Nat) (elt : α) (hinv : Inv sp)
    (hp : p < sp.length) (s : Nat) (r : α) :
    Holds (inserted sp p elt) s r ↔ (s = p ∧ r = elt) ∨ (s ≠ p ∧ Holds sp s r) := by
  have hfl : p < sp.flags.length := by rw [hinv.flags_len]; exact hp
  have hdl : p < sp.data.length := by rw [hinv.data_len]; exact hp
  by_cases hsp : s = p
  · subst hsp
    simp only [Holds, inserted, getD_set_self _ _ _ _ hfl, getD_set_self _ _ _ _ hdl]
    constructor
    · rintro ⟨_, _, h⟩
      exact Or.inl ⟨trivial, (Option.some.inj h).symm⟩
    · rintro (⟨_, h⟩ | ⟨h, _⟩)
      · exact ⟨hp, trivial, by rw [h]⟩
      · exact absurd rfl h
  · have hps : p ≠ s := fun h => hsp h.symm
    simp only [Holds, inserted, getD_set_ne _ _ _ _ _ hps]
    constructor
    · intro h
      exact Or.inr ⟨hsp, h⟩
    · rintro (⟨h, _⟩ | ⟨_, h⟩)
      · exact absurd h hsp
      · exact h

theorem flag_inserted_ne_empty {α : Type} (sp : SET α) (p : Nat) (elt : α) (hinv : Inv sp)
    (hp : p < sp.length) (q : Nat) (h : sp.flags.getD q empty ≠ empty) :
    (inserted sp p elt).flags.getD q empty ≠ empty := by
  have hfl : p < sp.flags.length := by rw [hinv.flags_len]; exact hp
  by_cases hqp : p = q
  · subst hqp
    simp only [inserted, getD_set_self _ _ _ _ hfl]
    decide
  · simp only [inserted, getD_set_ne _ _ _ _ _ hqp]
    exact h

theorem inv_inserted {α : Type} (sp : SET α) (elt : α) (j : Nat) (hinv : Inv sp)
    (hL : Lawful sp.compare sp.hash) (hj : j < sp.length)
    (hpre : ∀ k, k < j → sp.flags.getD (probe sp elt k) empty ≠ empty)
    (hnew : ∀ t b, Holds sp t b → sp.compare elt b ≠ 0) :
    Inv (inserted sp (probe sp elt j) elt) := by
  have hpos : 0 < sp.length := by omega
  have hp : probe sp elt j < sp.length := probe_lt sp elt j hpos
  have hprobe : ∀ e i, probe (inserted sp (probe sp elt j) elt) e i = probe sp e i :=
    fun e i => rfl
  refine ⟨?_, ?_, ?_, ?_, ?_⟩
  · simp [inserted, hinv.flags_len]
  · simp [inserted, hinv.data_len]
  · intro s hs hf
    have hfl : probe sp elt j < sp.flags.length := by rw [hinv.flags_len]; exact hp
    have hdl : probe sp elt j < sp.data.length := by rw [hinv.data_len]; exact hp
    by_cases hsp : probe sp elt j = s
    · subst hsp
      exact ⟨elt, by simp only [inserted, getD_set_self _ _ _ _ hdl]⟩
    · simp only [inserted, getD_set_ne _ _ _ _ _ hsp] at hf ⊢
      exact hinv.written s hs hf
  · intro s r h
    rcases (holds_inserted sp _ elt hinv hp s r).mp h with ⟨hs, hr⟩ | ⟨_, hold⟩
    · subst hs hr
      exact ⟨j, hj, rfl, fun k hk =>
        flag_inserted_ne_empty sp _ r hinv hp _ (hpre k hk)⟩
    · obtain ⟨i, hi, his, hip⟩ := hinv.path s r hold
      exact ⟨i, hi, his, fun k hk =>
        flag_inserted_ne_empty sp _ elt hinv hp _ (hip k hk)⟩
  · intro s t a b hs ht hab
    have hab' : sp.compare a b = 0 := hab
    rcases (holds_inserted sp _ elt hinv hp s a).mp hs with ⟨hs1, ha⟩ | ⟨hs1, holds⟩
    · rcases (holds_inserted sp _ elt hinv hp t b).mp ht with ⟨ht1, _⟩ | ⟨_, holdt⟩
      · rw [hs1, ht1]
      · subst ha
        exact absurd hab' (hnew t b holdt)
    · rcases (holds_inserted sp _ elt hinv hp t b).mp ht with ⟨_, hb⟩ | ⟨_, holdt⟩
      · subst hb
        exact absurd (hL.symm a b hab') (hnew s a holds)
      · exact hinv.nodup s t a b holds holdt hab'

theorem holds_tombstoned {α : Type} (sp : SET α) (p : Nat) (hinv : Inv sp)
    (hp : p < sp.length) (s : Nat) (r : α) :
    Holds (tombstoned sp p) s r ↔ s ≠ p ∧ Holds sp s r := by
  have hfl : p < sp.flags.length := by rw [hinv.flags_len]; exact hp
  by_cases hsp : s = p
  · subst hsp
    simp only [Holds, tombstoned, getD_set_self _ _ _ _ hfl]
    constructor
    · rintro ⟨_, h, _⟩
      exact absurd h (by decide)
    · rintro ⟨h, _⟩
      exact absurd rfl h
  · have hps : p ≠ s := fun h => hsp h.symm
    simp only [Holds, tombstoned, getD_set_ne _ _ _ _ _ hps]
    exact ⟨fun h => ⟨hsp, h⟩, fun h => h.2⟩

theorem flag_tombstoned_ne_empty {α : Type} (sp : SET α) (p : Nat) (hinv : Inv sp)
    (hp : p < sp.length) (q : Nat) (h : sp.flags.getD q empty ≠ empty) :
    (tombstoned sp p).flags.getD q empty ≠ empty := by
  have hfl : p < sp.flags.length := by rw [hinv.flags_len]; exact hp
  by_cases hqp : p = q
  · subst hqp
    simp only [tombstoned, getD_set_self _ _ _ _ hfl]
    decide
  · simp only [tombstoned, getD_set_ne _ _ _ _ _ hqp]
    exact h

theorem inv_tombstoned {α : Type} (sp : SET α) (p : Nat) (hinv : Inv sp)
    (hp : p < sp.length) : Inv (tombstoned sp p) := by
  refine ⟨?_, ?_, ?_, ?_, ?_⟩
  · simp [tombstoned, hinv.flags_len]
  · simp [tombstoned, hinv.data_len]
  · intro s hs hf
    have hfl : p < sp.flags.length := by rw [hinv.flags_len]; exact hp
    by_cases hsp : p = s
    · subst hsp
      simp only [tombstoned, getD_set_self _ _ _ _ hfl] at hf
      exact absurd hf (by decide)
    · simp only [tombstoned, getD_set_ne _ _ _ _ _ hsp] at hf ⊢
      exact hinv.written s hs hf
  · intro s r h
    obtain ⟨_, hold⟩ := (holds_tombstoned sp p hinv hp s r).mp h
    obtain ⟨i, hi, his, hip⟩ := hinv.path s r hold
    exact ⟨i, hi, his, fun k hk => flag_tombstoned_ne_empty sp p hinv hp _ (hip k hk)⟩
  · intro s t a b hs ht hab
    exact hinv.nodup s t a b ((holds_tombstoned sp p hinv hp s a).mp hs).2
      ((holds_tombstoned sp p hinv hp t b).mp ht).2 hab

theorem inv_count {α : Type} (sp : SET α) (c : Int) (hinv : Inv sp) :
    Inv { sp with count := c } :=
  ⟨hinv.flags_len, hinv.data_len, hinv.written, hinv.path, hinv.nodup⟩

/-! ## Case analysis of the two mutators -/

theorem addElement_cases {α : Type} (sp : SET α) (elt : α) (hinv : Inv sp)
    (hL : Lawful sp.compare sp.hash) :
    addElement sp elt = sp ∨
    ∃ j, j < sp.length ∧ sp.count ≠ (sp.length : Int) ∧
      search sp elt true = ((probe sp elt j : Int), false) ∧
      sp.flags.getD (probe sp elt j) empty ≠ filled ∧
      (∀ k, k < j → sp.flags.getD (probe sp elt k) empty ≠ empty) ∧
      (∀ t b, Holds sp t b → sp.compare elt b ≠ 0) ∧
      addElement sp elt = inserted sp (probe sp elt j) elt := by
  unfold addElement
  by_cases hc : sp.count = (sp.length : Int)
  · exact Or.inl (by simp [hc])
  · rcases search_post sp elt true with h | ⟨h, _⟩ | ⟨h, j, hj, hidx, hnf, hpre⟩
    · exact Or.inl (by simp [h])
    · exact Or.inl (by simp [h])
    · have hsr : search sp elt true = ((probe sp elt j : Int), false) :=
        Prod.ext hidx h
      refine Or.inr ⟨j, hj, hc, hsr, hnf, hpre, ?_, ?_⟩
      · intro t b hold heq
        have := search_hit sp elt b true t hinv hL hold heq
        rw [hsr] at this
        exact absurd (congrArg Prod.snd this) (by simp)
      · simp only [hsr, if_neg hc, if_true, store_natCast, inserted]

theorem removeElement_cases {α : Type} (sp : SET α) (elt : α) :
    removeElement sp elt = sp ∨
    (search sp elt true = (-1, true) ∧
      removeElement sp elt = { sp with count := sp.count - 1 }) ∨
    ∃ j, j < sp.length ∧ search sp elt true = ((probe sp elt j : Int), true) ∧
      sp.flags.getD (probe sp elt j) empty = filled ∧
      matchesAt sp elt (probe sp elt j) = true ∧
      removeElement sp elt = tombstoned sp (probe sp elt j) := by
  unfold removeElement
  rcases search_post sp elt true with h | ⟨h, j, hj, hidx, hf, hm⟩ | ⟨h, _⟩
  · exact Or.inr (Or.inl ⟨h, by simp [h, store_neg_one]⟩)
  · have hsr : search sp elt true = ((probe sp elt j : Int), true) := Prod.ext hidx h
    exact Or.inr (Or.inr ⟨j, hj, hsr, hf, hm, by
      simp only [hsr, if_true, store_natCast, tombstoned]⟩)
  · exact Or.inl (by simp [h])

theorem inv_addElement {α : Type} (sp : SET α) (elt : α) (hinv : Inv sp)
    (hL : Lawful sp.compare sp.hash) : Inv (addElement sp elt) := by
  rcases addElement_cases sp elt hinv hL with h | ⟨j, hj, _, _, _, hpre, hnew, h⟩
  · rw [h]; exact hinv
  · rw [h]; exact inv_inserted sp elt j hinv hL hj hpre hnew

theorem inv_removeElement {α : Type} (sp : SET α) (elt : α) (hinv : Inv sp) :
    Inv (removeElement sp elt) := by
  rcases removeElement_cases sp elt with h | ⟨_, h⟩ | ⟨j, hj, _, _, _, h⟩
  · rw [h]; exact hinv
  · rw [h]; exact inv_count sp _ hinv
  · rw [h]; exact inv_tombstoned sp _ hinv (probe_lt sp elt j (by omega))

theorem addElement_fields {α : Type} (sp : SET α) (elt : α) :
    (addElement sp elt).length = sp.length ∧ (addElement sp elt).compare = sp.compare ∧
      (addElement sp elt).hash = sp.hash := by
  simp only [addElement]
  split_ifs <;> exact ⟨rfl, rfl, rfl⟩

theorem removeElement_fields {α : Type} (sp : SET α) (elt : α) :
    (removeElement sp elt).length = sp.length ∧
      (removeElement sp elt).compare = sp.compare ∧
      (removeElement sp elt).hash = sp.hash := by
  simp only [removeElement]
  split_ifs <;> exact ⟨rfl, rfl, rfl⟩

theorem reachable_fields {α : Type} {maxElts : Nat} {compare : α → α → Int} {hash : α → Nat}
    {sp : SET α} (hr : Reachable maxElts compare hash sp) :
    sp.length = maxElts ∧ sp.compare = compare ∧ sp.hash = hash := by
  induction hr with
  | create => exact ⟨rfl, rfl, rfl⟩
  | add elt _ ih =>
    obtain ⟨h1, h2, h3⟩ := addElement_fields _ elt
    exact ⟨h1.trans ih.1, h2.trans ih.2.1, h3.trans ih.2.2⟩
  | remove elt _ ih =>
    obtain ⟨h1, h2, h3⟩ := removeElement_fields _ elt
    exact ⟨h1.trans ih.1, h2.trans ih.2.1, h3.trans ih.2.2⟩

theorem reachable_lawful {α : Type} {maxElts : Nat} {compare : α → α → Int} {hash : α → Nat}
    {sp : SET α} (hr : Reachable maxElts compare hash sp) (hL : Lawful compare hash) :
    Lawful sp.compare sp.hash := by
  obtain ⟨_, h2, h3⟩ := reachable_fields hr
  rw [h2, h3]; exact hL

theorem reachable_inv {α : Type} {maxElts : Nat} {compare : α → α → Int} {hash : α → Nat}
    {sp : SET α} (hr : Reachable maxElts compare hash sp) (hL : Lawful compare hash) :
    Inv sp := by
  induction hr with
  | create => exact inv_createSet maxElts compare hash
  | add elt hsp ih => exact inv_addElement _ elt ih (reachable_lawful hsp hL)
  | remove elt _ ih => exact inv_removeElement _ elt ih

theorem natCallbacks_lawful : Lawful natCompare natHash where
  refl := by intro a; simp [natCompare]
  symm := by intro a b h; simp only [natCompare] at h ⊢; omega
  trans := by intro a b c h1 h2; simp only [natCompare] at h1 h2 ⊢; omega
  hash_eq := by intro a b h; simp only [natCompare, natHash] at h ⊢; omega

theorem lastDigit_lawful : Lawful lastDigitCompare lastDigitHash where
  refl := by intro a; simp [lastDigitCompare]
  symm := by intro a b h; simp only [lastDigitCompare] at h ⊢; omega
  trans := by intro a b c h1 h2; simp only [lastDigitCompare] at h1 h2 ⊢; omega
  hash_eq := by intro a b h; simp only [lastDigitCompare, lastDigitHash] at h ⊢; omega

theorem addElement_hit {α : Type} (sp : SET α) (elt r : α) (s : Nat)
    (hinv : Inv sp) (hL : Lawful sp.compare sp.hash) (hold : Holds sp s r)
    (he : sp.compare elt r = 0) : addElement sp elt = sp := by
  simp only [addElement, search_hit sp elt r true s hinv hL hold he]
  split_ifs <;> first | rfl | simp_all

theorem removeElement_hit {α : Type} (sp : SET α) (elt r : α) (s : Nat)
    (hinv : Inv sp) (hL : Lawful sp.compare sp.hash) (hold : Holds sp s r)
    (he : sp.compare elt r = 0) : removeElement sp elt = tombstoned sp s := by
  simp only [removeElement, search_hit sp elt r true s hinv hL hold he, if_true,
    store_natCast, tombstoned]

/-! ## The probe path invariant, for any callbacks -/

theorem pathInv_createSet {α : Type} (maxElts : Nat) (compare : α → α → Int)
    (hash : α → Nat) : PathInv (createSet maxElts compare hash) where
  flags_len := by simp [createSet]
  data_len := by simp [createSet]
  path := fun s r h => absurd h (createSet_not_holds maxElts compare hash s r)

theorem pathInv_inserted {α : Type} (sp : SET α) (elt : α) (j : Nat) (hinv : PathInv sp)
    (hj : j < sp.length)
    (hpre : ∀ k, k < j → sp.flags.getD (probe sp elt k) empty ≠ empty) :
    PathInv (inserted sp (probe sp elt j) elt) := by
  have hpos : 0 < sp.length := by omega
  have hp : probe sp elt j < sp.length := probe_lt sp elt j hpos
  have hfl : probe sp elt j < sp.flags.length := by rw [hinv.flags_len]; exact hp
  have hdl : probe sp elt j < sp.data.length := by rw [hinv.data_len]; exact hp
  have hmono : ∀ q, sp.flags.getD q empty ≠ empty →
      (inserted sp (probe sp elt j) elt).flags.getD q empty ≠ empty := by
    intro q hq
    by_cases hqp : probe sp elt j = q
    · subst hqp
      simp only [inserted, getD_set_self _ _ _ _ hfl]
      decide
    · simp only [inserted, getD_set_ne _ _ _ _ _ hqp]
      exact hq
  refine ⟨?_, ?_, ?_⟩
  · simp [inserted, hinv.flags_len]
  · simp [inserted, hinv.data_len]
  · intro s r h
    by_cases hsp : probe sp elt j = s
    · have hd : (inserted sp (probe sp elt j) elt).data.getD s none = some r := h.2.2
      rw [← hsp] at hd
      simp only [inserted, getD_set_self _ _ _ _ hdl] at hd
      have hr : elt = r := Option.some.inj hd
      subst hr
      exact ⟨j, hj, hsp, fun k hk => hmono _ (hpre k hk)⟩
    · have hold : Holds sp s r := by
        obtain ⟨h1, h2, h3⟩ := h
        simp only [inserted, getD_set_ne _ _ _ _ _ hsp] at h2 h3
        exact ⟨h1, h2, h3⟩
      obtain ⟨i, hi, his, hip⟩ := hinv.path s r hold
      exact ⟨i, hi, his, fun k hk => hmono _ (hip k hk)⟩

theorem flag_tombstoned_of_ne {α : Type} (sp : SET α) (p q : Nat) (h : p ≠ q) :
    (tombstoned sp p).flags.getD q empty = sp.flags.getD q empty := by
  simp only [tombstoned, getD_set_ne _ _ _ _ _ h]

theorem flag_tombstoned_self {α : Type} (sp : SET α) (p : Nat) (h : p < sp.flags.length) :
    (tombstoned sp p).flags.getD p empty = deleted := by
  simp only [tombstoned, getD_set_self _ _ _ _ h]

theorem flag_tombstoned_mono {α : Type} (sp : SET α) (p q : Nat) (hp : p < sp.flags.length)
    (h : sp.flags.getD q empty ≠ empty) : (tombstoned sp p).flags.getD q empty ≠ empty := by
  by_cases hpq : p = q
  · subst hpq
    rw [flag_tombstoned_self sp p hp]
    decide
  · rw [flag_tombstoned_of_ne sp p q hpq]
    exact h

theorem flag_of_tombstoned_filled {α : Type} (sp : SET α) (p q : Nat)
    (hp : p < sp.flags.length) (h : (tombstoned sp p).flags.getD q empty = filled) :
    p ≠ q ∧ sp.flags.getD q empty = filled := by
  by_cases hpq : p = q
  · subst hpq
    rw [flag_tombstoned_self sp p hp] at h
    exact absurd h (by decide)
  · rw [flag_tombstoned_of_ne sp p q hpq] at h
    exact ⟨hpq, h⟩

theorem pathInv_tombstoned {α : Type} (sp : SET α) (p : Nat) (hinv : PathInv sp)
    (hp : p < sp.length) : PathInv (tombstoned sp p) := by
  have hfl : p < sp.flags.length := by rw [hinv.flags_len]; exact hp
  refine ⟨?_, ?_, ?_⟩
  · simp [tombstoned, hinv.flags_len]
  · simp [tombstoned, hinv.data_len]
  · intro s r h
    have hold : Holds sp s r := ⟨h.1, (flag_of_tombstoned_filled sp p s hfl h.2.1).2, h.2.2⟩
    obtain ⟨i, hi, his, hip⟩ := hinv.path s r hold
    exact ⟨i, hi, his, fun k hk => flag_tombstoned_mono sp p _ hfl (hip k hk)⟩

theorem pathInv_count {α : Type} (sp : SET α) (c : Int) (hinv : PathInv sp) :
    PathInv { sp with count := c } :=
  ⟨hinv.flags_len, hinv.data_len, hinv.path⟩

theorem pathInv_addElement {α : Type} (sp : SET α) (elt : α) (hinv : PathInv sp) :
    PathInv (addElement sp elt) := by
  unfold addElement
  by_cases hc : sp.count = (sp.length : Int)
  · simp only [hc, if_true]; exact hinv
  · rcases search_post sp elt true with h | ⟨h, _⟩ | ⟨h, j, hj, hidx, _, hpre⟩
    · simp only [h, if_neg hc]; exact hinv
    · simp only [h, if_neg hc]; exact hinv
    · have hsr : search sp elt true = ((probe sp elt j : Int), false) := Prod.ext hidx h
      simp only [hsr, if_neg hc, if_true, store_natCast]
      exact pathInv_inserted sp elt j hinv hj hpre

theorem pathInv_removeElement {α : Type} (sp : SET α) (elt : α) (hinv : PathInv sp) :
    PathInv (removeElement sp elt) := by
  rcases removeElement_cases sp elt with h | ⟨_, h⟩ | ⟨j, hj, _, _, _, h⟩
  · rw [h]; exact hinv
  · rw [h]; exact pathInv_count sp _ hinv
  · rw [h]; exact pathInv_tombstoned sp _ hinv (probe_lt sp elt j (by omega))

theorem reachable_pathInv {α : Type} {maxElts : Nat} {compare : α → α → Int}
    {hash : α → Nat} {sp : SET α} (hr : Reachable maxElts compare hash sp) : PathInv sp := by
  induction hr with
  | create => exact pathInv_createSet maxElts compare hash
  | add elt _ ih => exact pathInv_addElement _ elt ih
  | remove elt _ ih => exact pathInv_removeElement _ elt ih

theorem searchLoop_first_match {α : Type} (sp : SET α) (elt : α) (fnd : Bool) (m : Nat)
    (hfilled : sp.flags.getD (probe sp elt m) empty = filled)
    (hmatch : matchesAt sp elt (probe sp elt m) = true)
    (hpre : ∀ k, k < m → sp.flags.getD (probe sp elt k) empty ≠ empty)
    (hfirst : ∀ k, k < m → ¬ (sp.flags.getD (probe sp elt k) empty = filled ∧
      matchesAt sp elt (probe sp elt k) = true)) :
    ∀ (n i : Nat) (x : Int), i + n = sp.length → i ≤ m → m < sp.length →
      searchLoop sp elt fnd n i x = ((probe sp elt m : Int), true) := by
  intro n
  induction n with
  | zero => intro i x hin hle hm; omega
  | succ n ih =>
    intro i x hin hle hm
    simp only [searchLoop]
    rcases Nat.lt_or_eq_of_le hle with hlt | heq
    · rw [if_neg (hpre i hlt), if_neg (hfirst i hlt)]
      split_ifs with h3
      · exact ih (i + 1) _ (by omega) (by omega) hm
      · exact ih (i + 1) x (by omega) (by omega) hm
    · subst heq
      have hne : ¬ sp.flags.getD (probe sp elt i) empty = empty := by rw [hfilled]; decide
      rw [if_neg hne, if_pos ⟨hfilled, hmatch⟩]

theorem search_first_match {α : Type} (sp : SET α) (elt : α) (fnd : Bool) (m : Nat)
    (hm : m < sp.length)
    (hfilled : sp.flags.getD (probe sp elt m) empty = filled)
    (hmatch : matchesAt sp elt (probe sp elt m) = true)
    (hpre : ∀ k, k < m → sp.flags.getD (probe sp elt k) empty ≠ empty)
    (hfirst : ∀ k, k < m → ¬ (sp.flags.getD (probe sp elt k) empty = filled ∧
      matchesAt sp elt (probe sp elt k) = true)) :
    search sp elt fnd = ((probe sp elt m : Int), true) := by
  unfold search
  exact searchLoop_first_match sp elt fnd m hfilled hmatch hpre hfirst sp.length 0 (-1)
    (by omega) (Nat.zero_le m) hm

/-- In a state with the path invariant, an element that compares equal to a
stored reference has a first attempt that meets a `filled` slot comparing
equal, behind non-`empty` slots only, and `search` stops there. -/
theorem exists_first_match {α : Type} (sp : SET α) (hinv : PathInv sp) (t : Nat) (y : α)
    (hy : Holds sp t y) (hyy : sp.compare y y = 0) :
    ∃ m, m < sp.length ∧ sp.flags.getD (probe sp y m) empty = filled ∧
      matchesAt sp y (probe sp y m) = true ∧
      (∀ k, k < m → sp.flags.getD (probe sp y k) empty ≠ empty) ∧
      (∀ k, k < m → ¬ (sp.flags.getD (probe sp y k) empty = filled ∧
        matchesAt sp y (probe sp y k) = true)) := by
  obtain ⟨i0, hi0, hs, hpre⟩ := hinv.path t y hy
  have hex : ∃ k, sp.flags.getD (probe sp y k) empty = filled ∧
      matchesAt sp y (probe sp y k) = true := by
    refine ⟨i0, ?_, ?_⟩
    · rw [hs]; exact hy.2.1
    · rw [hs]; exact (matchesAt_iff sp y t).mpr ⟨y, hy.2.2, hyy⟩
  have hle : Nat.find hex ≤ i0 := Nat.find_min' hex
    ⟨by rw [hs]; exact hy.2.1, by rw [hs]; exact (matchesAt_iff sp y t).mpr ⟨y, hy.2.2, hyy⟩⟩
  refine ⟨Nat.find hex, by omega, (Nat.find_spec hex).1, (Nat.find_spec hex).2, ?_, ?_⟩
  · intro k hk
    exact hpre k (by omega)
  · intro k hk
    exact Nat.find_min hex hk

/-! ## Claims about reachable states -/

/-- C2 (no duplicates): when `compare a b = 0` is an equivalence relation and
`hash` agrees on elements that compare equal, in every state reachable from
`createSet` by `addElement` and `removeElement` calls two `filled` slots whose
elements compare equal are the same slot. -/
theorem no_duplicates {α : Type} (maxElts : Nat) (compare : α → α → Int) (hash : α → Nat)
    (hL : Lawful compare hash) (sp : SET α) (hr : Reachable maxElts compare hash sp)
    (s t : Nat) (a b : α) (hs : Holds sp s a) (ht : Holds sp t b)
    (hab : compare a b = 0) : s = t := by
  have hc : sp.compare = compare := (reachable_fields hr).2.1
  exact (reachable_inv hr hL).nodup s t a b hs ht (by rw [hc]; exact hab)

/-- Witness of C2 on the table of capacity 3 holding 3 and 6, which collide. -/
theorem no_duplicates_witness :
    Holds (addElement (addElement (createSet 3 natCompare natHash) 3) 6) 1 6 ∧ (1 : Nat) = 1 :=
  have h : Holds (addElement (addElement (createSet 3 natCompare natHash) 3) 6) 1 6 :=
    ⟨by decide, by decide, by decide⟩
  ⟨h, no_duplicates 3 natCompare natHash natCallbacks_lawful _
    (Reachable.add 6 (Reachable.add 3 Reachable.create)) 1 1 6 6 h h (by decide)⟩

/-- C3 (round trip, found): in every reachable state, with callbacks that obey
their contract, `findElement` called with an element that compares equal to
the reference `r` held in a `filled` slot returns exactly `r`. -/
theorem findElement_stored {α : Type} (maxElts : Nat) (compare : α → α → Int)
    (hash : α → Nat) (hL : Lawful compare hash) (sp : SET α)
    (hr : Reachable maxElts compare hash sp) (s : Nat) (r elt : α) (hold : Holds sp s r)
    (he : compare elt r = 0) : findElement sp elt = Ptr.ref r := by
  have hc : sp.compare = compare := (reachable_fields hr).2.1
  exact findElement_hit sp elt r s (reachable_inv hr hL) (reachable_lawful hr hL) hold
    (by rw [hc]; exact he)

/-- Witness of C3: 6 collides with 3 in a table of capacity 3 and is found in
slot 1. -/
theorem findElement_stored_witness :
    findElement (addElement (addElement (createSet 3 natCompare natHash) 3) 6) 6 = Ptr.ref 6 :=
  findElement_stored 3 natCompare natHash natCallbacks_lawful _
    (Reachable.add 6 (Reachable.add 3 Reachable.create)) 1 6 6
    ⟨by decide, by decide, by decide⟩ (by decide)

/-- C6 as stated fails when the hash does not agree with the comparator: with
the last-digit comparator and the identity hash on capacity 4, slot 3 holds 7;
17 compares equal to 7 but hashes to slot 1, which is `empty`, so
`addElement 17` stores it as well: `count` grows from 1 to 2 and
`findElement 17` returns 17, not 7. -/
theorem addElement_equal_key_other_hash_stored :
    Reachable 4 lastDigitCompare natHash sevenByIdentityHash ∧
      Holds sevenByIdentityHash 3 7 ∧ lastDigitCompare 17 7 = 0 ∧
      numElements sevenByIdentityHash = 1 ∧
      numElements (addElement sevenByIdentityHash 17) = 2 ∧
      Holds (addElement sevenByIdentityHash 17) 1 17 ∧
      Holds (addElement sevenByIdentityHash 17) 3 7 ∧
      findElement (addElement sevenByIdentityHash 17) 17 = Ptr.ref 17 :=
  ⟨Reachable.add 7 Reachable.create, ⟨by decide, by decide, by decide⟩, by decide,
    by decide, by decide, ⟨by decide, by decide, by decide⟩,
    ⟨by decide, by decide, by decide⟩, by decide⟩

/-- C6 amended (uniqueness, no overwrite): when `compare a b = 0` is an
equivalence relation and `hash` agrees on elements that compare equal, in every
reachable state in which a `filled` slot holds `r`, `addElement` of a reference
`r2` with `compare r2 r = 0` returns the state unchanged (count, flags and
stored references), so `numElements` does not grow and `findElement` still
returns `r`. -/
theorem addElement_present_noop {α : Type} (maxElts : Nat) (compare : α → α → Int)
    (hash : α → Nat) (hL : Lawful compare hash) (sp : SET α)
    (hr : Reachable maxElts compare hash sp) (s : Nat) (r r2 : α) (hold : Holds sp s r)
    (he : compare r2 r = 0) :
    addElement sp r2 = sp ∧ numElements (addElement sp r2) = numElements sp ∧
      Holds (addElement sp r2) s r ∧ findElement (addElement sp r2) r2 = Ptr.ref r := by
  have hc : sp.compare = compare := (reachable_fields hr).2.1
  have he' : sp.compare r2 r = 0 := by rw [hc]; exact he
  have hinv := reachable_inv hr hL
  have hL' := reachable_lawful hr hL
  have hadd : addElement sp r2 = sp := addElement_hit sp r2 r s hinv hL' hold he'
  rw [hadd]
  exact ⟨rfl, rfl, hold, findElement_hit sp r2 r s hinv hL' hold he'⟩

/-- Witness of C6: 17 compares equal to the stored 7 and is not inserted. -/
theorem addElement_present_noop_witness :
    addElement (addElement (createSet 4 lastDigitCompare lastDigitHash) 7) 17 =
        addElement (createSet 4 lastDigitCompare lastDigitHash) 7 ∧
      numElements (addElement (addElement (createSet 4 lastDigitCompare lastDigitHash) 7) 17) =
        numElements (addElement (createSet 4 lastDigitCompare lastDigitHash) 7) ∧
      Holds (addElement (addElement (createSet 4 lastDigitCompare lastDigitHash) 7) 17) 3 7 ∧
      findElement (addElement (addElement (createSet 4 lastDigitCompare lastDigitHash) 7) 17) 17 =
        Ptr.ref 7 :=
  addElement_present_noop 4 lastDigitCompare lastDigitHash lastDigit_lawful _
    (Reachable.add 7 Reachable.create) 3 7 17 ⟨by decide, by decide, by decide⟩ (by decide)

/-- C9 (tombstone correctness): for a comparator whose `compare a b = 0` is an
equivalence relation and any hash, in every reachable state holding `x` and `y`
in `filled` slots with `compare x y ≠ 0`, `findElement y` succeeds before
`removeElement x`, returning a stored reference that compares equal to `y`, and
returns that same reference after it. -/
theorem findElement_after_remove_other {α : Type} (maxElts : Nat) (compare : α → α → Int)
    (hash : α → Nat) (hE : EquivCompare compare) (sp : SET α)
    (hr : Reachable maxElts compare hash sp) (s t : Nat) (x y : α) (hx : Holds sp s x)
    (hy : Holds sp t y) (hxy : compare x y ≠ 0) :
    ∃ u r, Holds sp u r ∧ compare y r = 0 ∧ findElement sp y = Ptr.ref r ∧
      findElement (removeElement sp x) y = Ptr.ref r := by
  have hc : sp.compare = compare := (reachable_fields hr).2.1
  have hinv := reachable_pathInv hr
  obtain ⟨mx, hmx, hfx, hmatchx, hprex, hfirstx⟩ :=
    exists_first_match sp hinv s x hx (by rw [hc]; exact hE.refl x)
  obtain ⟨my, hmy, hfy, hmatchy, hprey, hfirsty⟩ :=
    exists_first_match sp hinv t y hy (by rw [hc]; exact hE.refl y)
  obtain ⟨dx, hdx, hcx⟩ := (matchesAt_iff sp x _).mp hmatchx
  obtain ⟨d, hd, hcd⟩ := (matchesAt_iff sp y _).mp hmatchy
  rw [hc] at hcx hcd
  have hsx : search sp x true = ((probe sp x mx : Int), true) :=
    search_first_match sp x true mx hmx hfx hmatchx hprex hfirstx
  have hsy : search sp y true = ((probe sp y my : Int), true) :=
    search_first_match sp y true my hmy hfy hmatchy hprey hfirsty
  have hrem : removeElement sp x = tombstoned sp (probe sp x mx) := by
    simp only [removeElement, hsx, if_true, store_natCast, tombstoned]
  have hpq : probe sp x mx ≠ probe sp y my := by
    intro h
    rw [h, hd] at hdx
    have hdd : d = dx := Option.some.inj hdx
    rw [← hdd] at hcx
    exact hxy (hE.trans x d y hcx (hE.symm y d hcd))
  have hpl : probe sp x mx < sp.flags.length := by
    rw [hinv.flags_len]; exact probe_lt sp x mx (by omega)
  have hbefore : findElement sp y = Ptr.ref d := by
    simp only [findElement, hsy, if_true]
    exact load_natCast sp.data _ d hd
  have hsy2 : search (tombstoned sp (probe sp x mx)) y true = ((probe sp y my : Int), true) :=
    search_first_match (tombstoned sp (probe sp x mx)) y true my hmy
      ((flag_tombstoned_of_ne sp _ _ hpq).trans hfy) hmatchy
      (fun k hk => flag_tombstoned_mono sp _ _ hpl (hprey k hk))
      (fun k hk h => hfirsty k hk ⟨(flag_of_tombstoned_filled sp _ _ hpl h.1).2, h.2⟩)
  have hafter : findElement (removeElement sp x) y = Ptr.ref d := by
    rw [hrem]
    simp only [findElement, hsy2, if_true]
    exact load_natCast sp.data _ d hd
  exact ⟨probe sp y my, d, ⟨probe_lt sp y my (by omega), hfy, hd⟩, hcd, hbefore, hafter⟩

theorem lastDigitCompare_equiv : EquivCompare lastDigitCompare where
  refl := lastDigit_lawful.refl
  symm := lastDigit_lawful.symm
  trans := lastDigit_lawful.trans

/-- Witness of C9, with a hash that does not agree with the comparator: 5 was
placed behind 17 on the same probe path; `findElement 5` returns 5 before and
after `removeElement 17`. -/
theorem findElement_after_remove_other_witness :
    findElement mixedHashSet 5 = Ptr.ref 5 ∧
      findElement (removeElement mixedHashSet 17) 5 = Ptr.ref 5 ∧
      ∃ u r, Holds mixedHashSet u r ∧ lastDigitCompare 5 r = 0 ∧
        findElement mixedHashSet 5 = Ptr.ref r ∧
        findElement (removeElement mixedHashSet 17) 5 = Ptr.ref r :=
  ⟨by decide, by decide,
    findElement_after_remove_other 4 lastDigitCompare natHash lastDigitCompare_equiv
      mixedHashSet (Reachable.add 5 (Reachable.add 17 (Reachable.add 7 Reachable.create)))
      1 2 17 5 ⟨by decide, by decide, by decide⟩ ⟨by decide, by decide, by decide⟩
      (by decide)⟩

/-! ## Runs on which the probe loop runs out

`search` leaves its loop by `return -1` without assigning `*found`, and every
caller sets `found = true` before the call.  When no `empty` slot lies on the
probe path of an element that is not stored, the caller therefore proceeds as
if the element had been found at index `-1`. -/

/-- C1 (count invariant), evaluated on a run that breaks it: capacity 1,
`addElement 7`, `removeElement 7`, `removeElement 7`.  The second removal gets
`-1` with `*found` still true from `search` and decrements `count` to `-1`,
while no slot is `filled`. -/
theorem count_negative_after_repeated_remove :
    Reachable 1 natCompare natHash (removeElement tombstoneOnly 7) ∧
      tombstoneOnly.count = 0 ∧ filledCount tombstoneOnly = 0 ∧
      search tombstoneOnly 7 true = (-1, true) ∧
      (removeElement tombstoneOnly 7).count = -1 ∧
      filledCount (removeElement tombstoneOnly 7) = 0 :=
  ⟨Reachable.remove 7 (Reachable.remove 7 (Reachable.add 7 Reachable.create)),
    by decide, by decide, by decide, by decide, by decide⟩

/-- C4 (round trip, not found), evaluated on a run that breaks it: after
`addElement 7` and `removeElement 7` on capacity 1 no slot is `filled`, yet
`findElement 7` does not return `NULL`: it returns the content of `data[-1]`. -/
theorem findElement_removed_reads_outside :
    Reachable 1 natCompare natHash tombstoneOnly ∧ filledCount tombstoneOnly = 0 ∧
      search tombstoneOnly 7 true = (-1, true) ∧
      findElement tombstoneOnly 7 = Ptr.invalid (-1) ∧
      findElement tombstoneOnly 7 ≠ Ptr.null :=
  ⟨Reachable.remove 7 (Reachable.add 7 Reachable.create),
    by decide, by decide, by decide, by decide⟩

/-- C5 (insert of a new element), evaluated on a run that breaks it: capacity
1 with its slot a tombstone has `count = 0 < 1`, yet `addElement 9` writes
nothing, leaves `count` at 0 and `findElement 9` does not return 9. -/
theorem addElement_new_dropped_on_tombstone :
    Reachable 1 natCompare natHash tombstoneOnly ∧
      tombstoneOnly.count = 0 ∧ tombstoneOnly.length = 1 ∧ filledCount tombstoneOnly = 0 ∧
      search tombstoneOnly 9 true = (-1, true) ∧
      (addElement tombstoneOnly 9).count = 0 ∧
      (addElement tombstoneOnly 9).flags = [deleted] ∧
      (addElement tombstoneOnly 9).data = [some 7] ∧
      findElement (addElement tombstoneOnly 9) 9 ≠ Ptr.ref 9 :=
  ⟨Reachable.remove 7 (Reachable.add 7 Reachable.create),
    by decide, by decide, by decide, by decide, by decide, by decide, by decide, by decide⟩

/-- C7 (capacity ceiling), evaluated on a run that breaks it: capacity 3 and
the pairwise different elements 3, 4, 4294967295.  The probe path of the third
is 0, 0, 1 because `hash + i` wraps at `2 ^ 32`; slot 2 is never examined, the
loop runs out and the element is not inserted: `numElements` is 2, not 3. -/
theorem capacity_not_reached_on_wrapped_probe :
    natCompare 3 4 ≠ 0 ∧ natCompare 3 4294967295 ≠ 0 ∧ natCompare 4 4294967295 ≠ 0 ∧
      probe wrappedInsert 4294967295 0 = 0 ∧ probe wrappedInsert 4294967295 1 = 0 ∧
      probe wrappedInsert 4294967295 2 = 1 ∧
      wrappedInsert.flags = [filled, filled, empty] ∧
      wrappedInsert.data = [some 3, some 4, none] ∧
      numElements wrappedInsert = 2 := by
  decide

/-- C8 (remove of an absent element), evaluated on a run that breaks it:
capacity 2 with both slots tombstones and `count = 0`; `removeElement 3`, with
3 never inserted, decrements `count` to `-1`. -/
theorem removeElement_absent_decrements :
    Reachable 2 natCompare natHash twoTombstones ∧
      twoTombstones.count = 0 ∧ twoTombstones.flags = [deleted, deleted] ∧
      search twoTombstones 3 true = (-1, true) ∧
      (removeElement twoTombstones 3).count = -1 ∧
      removeElement twoTombstones 3 ≠ twoTombstones :=
  ⟨Reachable.remove 2 (Reachable.remove 1 (Reachable.add 2 (Reachable.add 1 Reachable.create))),
    by decide, by decide, by decide, by decide,
    fun h => absurd (congrArg SET.count h) (by decide)⟩

/-- C10 (remove then re-insert), evaluated on a run that breaks it: capacity 2
holding E = 2 and 4; E2 = 6 is not stored, differs from E and has the same
origin 0.  After `removeElement 2` and `addElement 6`, `numElements` is 1
instead of 2, `findElement 6` does not return 6 and `findElement 2` does not
return `NULL`. -/
theorem reinsert_dropped_without_empty_slot :
    Reachable 2 natCompare natHash fullPair ∧
      Holds fullPair 0 2 ∧ Holds fullPair 1 4 ∧ natCompare 6 2 ≠ 0 ∧ natCompare 6 4 ≠ 0 ∧
      natHash 6 % 2 = natHash 2 % 2 ∧
      numElements fullPair = 2 ∧
      numElements (addElement (removeElement fullPair 2) 6) = 1 ∧
      (addElement (removeElement fullPair 2) 6).flags = [deleted, filled] ∧
      findElement (addElement (removeElement fullPair 2) 6) 6 = Ptr.invalid (-1) ∧
      findElement (addElement (removeElement fullPair 2) 6) 2 = Ptr.invalid (-1) :=
  ⟨Reachable.add 4 (Reachable.add 2 Reachable.create),
    ⟨by decide, by decide, by decide⟩, ⟨by decide, by decide, by decide⟩,
    by decide, by decide, by decide, by decide, by decide, by decide, by decide, by decide⟩

/-! ## Rearrangements of an array segment -/

theorem swap_eq_comp {α : Type} (a : Int → α) (i j : Int) :
    swap a i j = a ∘ (Equiv.swap i j) := by
  funext k
  unfold swap
  by_cases hkj : k = j
  · subst hkj
    rw [Function.update_same, Function.comp_apply, Equiv.swap_apply_right]
  · rw [Function.update_noteq hkj]
    by_cases hki : k = i
    · subst hki
      rw [Function.update_same, Function.comp_apply, Equiv.swap_apply_left]
    · rw [Function.update_noteq hki, Function.comp_apply,
        Equiv.swap_apply_of_ne_of_ne hki hkj]

theorem swap_self {α : Type} (a : Int → α) (i : Int) : swap a i i = a := by
  rw [swap_eq_comp, Equiv.swap_self]
  rfl

theorem rearranged_refl {α : Type} (a : Int → α) (lo hi : Int) : Rearranged a a lo hi :=
  ⟨1, fun _ _ => rfl, rfl⟩

theorem rearranged_trans {α : Type} {a b c : Int → α} {lo hi : Int}
    (h1 : Rearranged a b lo hi) (h2 : Rearranged b c lo hi) : Rearranged a c lo hi := by
  obtain ⟨σ1, hf1, rfl⟩ := h1
  obtain ⟨σ2, hf2, rfl⟩ := h2
  refine ⟨σ1 * σ2, ?_, rfl⟩
  intro k hk
  rw [Equiv.Perm.mul_apply, hf2 k hk, hf1 k hk]

theorem rearranged_mono {α : Type} {a b : Int → α} {lo hi lo0 hi0 : Int}
    (h : Rearranged a b lo hi) (hlo : lo0 ≤ lo) (hhi : hi ≤ hi0) : Rearranged a b lo0 hi0 := by
  obtain ⟨σ, hf, rfl⟩ := h
  exact ⟨σ, fun k hk => hf k (by omega), rfl⟩

theorem rearranged_swap {α : Type} (a : Int → α) {lo hi i j : Int}
    (hi1 : lo ≤ i) (hi2 : i ≤ hi) (hj1 : lo ≤ j) (hj2 : j ≤ hi) :
    Rearranged a (swap a i j) lo hi := by
  refine ⟨Equiv.swap i j, ?_, swap_eq_comp a i j⟩
  intro k hk
  exact Equiv.swap_apply_of_ne_of_ne (by omega) (by omega)

theorem rearranged_frame {α : Type} {a b : Int → α} {lo hi : Int}
    (h : Rearranged a b lo hi) (k : Int) (hk : k < lo ∨ hi < k) : b k = a k := by
  obtain ⟨σ, hf, rfl⟩ := h
  simp [hf k hk]

theorem perm_maps_inside (σ : Equiv.Perm Int) (lo hi : Int)
    (hf : ∀ k, k < lo ∨ hi < k → σ k = k) (k : Int) (h1 : lo ≤ k) (h2 : k ≤ hi) :
    lo ≤ σ k ∧ σ k ≤ hi := by
  by_contra hc
  have hout : σ k < lo ∨ hi < σ k := by omega
  have h3 : σ (σ k) = σ k := hf (σ k) hout
  have h4 : σ k = k := σ.injective h3
  omega

theorem rearranged_inside {α : Type} {a b : Int → α} {lo hi : Int}
    (h : Rearranged a b lo hi) (k : Int) (h1 : lo ≤ k) (h2 : k ≤ hi) :
    ∃ k0, lo ≤ k0 ∧ k0 ≤ hi ∧ b k = a k0 := by
  obtain ⟨σ, hf, rfl⟩ := h
  obtain ⟨h3, h4⟩ := perm_maps_inside σ lo hi hf k h1 h2
  exact ⟨σ k, h3, h4, rfl⟩

theorem rearranged_perm {α : Type} {a b : Int → α} {lo hi : Int} (n : Nat)
    (h : Rearranged a b lo hi) (hn : lo + (n : Int) = hi + 1) :
    (segment b lo n).Perm (segment a lo n) := by
  obtain ⟨σ, hf, rfl⟩ := h
  let emb : Nat ↪ Int :=
    ⟨fun j => lo + (j : Int), fun x y hxy => by simp only at hxy; omega⟩
  let S : Finset Int := (Finset.range n).map emb
  have hS : S.map (σ : Int ↪ Int) = S := by
    apply Finset.map_perm
    intro k hk
    simp only [Set.mem_setOf_eq] at hk
    have hin : lo ≤ k ∧ k ≤ hi := by
      by_contra hc
      exact hk (hf k (by omega))
    simp only [S, Finset.coe_map, Finset.coe_range, Set.mem_image, Set.mem_Iio]
    refine ⟨(k - lo).toNat, ?_, ?_⟩
    · omega
    · show lo + ((k - lo).toNat : Int) = k
      omega
  have hseg : ∀ f : Int → α, ((segment f lo n : List α) : Multiset α) = S.val.map f := by
    intro f
    simp only [segment, S, Finset.map_val, Multiset.map_map, Finset.range_val]
    rfl
  apply Multiset.coe_eq_coe.mp
  rw [hseg, hseg]
  conv_rhs => rw [← hS]
  simp only [Finset.map_val, Multiset.map_map]
  rfl

/-! ## The partition loop -/

theorem swap_apply_left {α : Type} (a : Int → α) (i j : Int) : swap a i j j = a i := by
  unfold swap
  rw [Function.update_same]

theorem swap_apply_right {α : Type} (a : Int → α) (i j : Int) (h : i ≠ j) :
    swap a i j i = a j := by
  unfold swap
  rw [Function.update_noteq h, Function.update_same]

theorem swap_apply_other {α : Type} (a : Int → α) (i j k : Int) (hi : k ≠ i) (hj : k ≠ j) :
    swap a i j k = a k := by
  unfold swap
  rw [Function.update_noteq hj, Function.update_noteq hi]

theorem partitionLoop_post {α : Type} (compare : α → α → Int) (x : α) (lo : Int) :
    ∀ (n : Nat) (i sep : Int) (a : Int → α), lo ≤ sep → sep ≤ i →
      (∀ k, lo ≤ k → k < sep → compare (a k) x < 0) →
      (∀ k, sep ≤ k → k < i → ¬ compare (a k) x < 0) →
      lo ≤ (partitionLoop compare x n i sep a).2 ∧
      (partitionLoop compare x n i sep a).2 ≤ i + n ∧
      (∀ k, lo ≤ k → k < (partitionLoop compare x n i sep a).2 →
        compare ((partitionLoop compare x n i sep a).1 k) x < 0) ∧
      (∀ k, (partitionLoop compare x n i sep a).2 ≤ k → k < i + n →
        ¬ compare ((partitionLoop compare x n i sep a).1 k) x < 0) ∧
      Rearranged a (partitionLoop compare x n i sep a).1 lo (i + n - 1) := by
  intro n
  induction n with
  | zero =>
    intro i sep a hlo hsep hl hr
    simp only [partitionLoop, Nat.cast_zero, add_zero]
    exact ⟨hlo, hsep, hl, hr, rearranged_refl a lo (i - 1)⟩
  | succ n ih =>
    intro i sep a hlo hsep hl hr
    simp only [partitionLoop]
    have hcast : i + ((n + 1 : Nat) : Int) = i + 1 + (n : Int) := by push_cast; ring
    rw [hcast]
    split_ifs with hc
    · have hl1 : ∀ k, lo ≤ k → k < sep + 1 → compare (swap a i sep k) x < 0 := by
        intro k hk1 hk2
        by_cases hks : k = sep
        · rw [hks, swap_apply_left]; exact hc
        · rw [swap_apply_other a i sep k (by omega) hks]
          exact hl k hk1 (by omega)
      have hr1 : ∀ k, sep + 1 ≤ k → k < i + 1 → ¬ compare (swap a i sep k) x < 0 := by
        intro k hk1 hk2
        by_cases hki : k = i
        · rw [hki, swap_apply_right a i sep (by omega)]
          exact hr sep (le_refl sep) (by omega)
        · rw [swap_apply_other a i sep k hki (by omega)]
          exact hr k (by omega) (by omega)
      obtain ⟨h1, h2, h3, h4, h5⟩ :=
        ih (i + 1) (sep + 1) (swap a i sep) (by omega) (by omega) hl1 hr1
      refine ⟨h1, h2, h3, h4, rearranged_trans ?_ h5⟩
      exact rearranged_swap a (by omega) (by omega) hlo (by omega)
    · have hr1 : ∀ k, sep ≤ k → k < i + 1 → ¬ compare (a k) x < 0 := by
        intro k hk1 hk2
        by_cases hki : k = i
        · rw [hki]; exact hc
        · exact hr k hk1 (by omega)
      exact ih (i + 1) sep a hlo (by omega) hl hr1

theorem partitionLoop_all_less {α : Type} (compare : α → α → Int) (x : α) :
    ∀ (n : Nat) (i : Int) (a : Int → α),
      (∀ k, i ≤ k → k < i + n → compare (a k) x < 0) →
      partitionLoop compare x n i i a = (a, i + n) := by
  intro n
  induction n with
  | zero => intro i a _; simp [partitionLoop]
  | succ n ih =>
    intro i a h
    simp only [partitionLoop]
    have hc : compare (a i) x < 0 := h i (le_refl i) (by push_cast; omega)
    rw [if_pos hc, swap_self, ih (i + 1) a (fun k hk1 hk2 => h k (by omega) (by push_cast; omega))]
    congr 1
    push_cast; ring

/-- Everything `partition` guarantees, for any comparator, when `lo <= hi`. -/
theorem partition_post {α : Type} (a : Int → α) (lo hi : Int) (compare : α → α → Int)
    (h : lo ≤ hi) :
    lo ≤ (partition a lo hi compare).2 ∧ (partition a lo hi compare).2 ≤ hi ∧
      (partition a lo hi compare).1 (partition a lo hi compare).2 = a hi ∧
      (∀ k, lo ≤ k → k < (partition a lo hi compare).2 →
        compare ((partition a lo hi compare).1 k) (a hi) < 0) ∧
      (∀ k, (partition a lo hi compare).2 < k → k ≤ hi →
        0 ≤ compare ((partition a lo hi compare).1 k) (a hi)) ∧
      Rearranged a (partition a lo hi compare).1 lo hi := by
  have hn : lo + ((hi - lo).toNat : Int) = hi := by omega
  obtain ⟨h1, h2, h3, h4, h5⟩ := partitionLoop_post compare (a hi) lo (hi - lo).toNat lo lo a
    (le_refl lo) (le_refl lo) (fun k hk1 hk2 => absurd hk2 (by omega))
    (fun k hk1 hk2 => absurd hk2 (by omega))
  rw [hn] at h2 h4 h5
  simp only [partition]
  generalize partitionLoop compare (a hi) (hi - lo).toNat lo lo a = r at h1 h2 h3 h4 h5
  have hhi : r.1 hi = a hi := rearranged_frame h5 hi (by omega)
  refine ⟨h1, h2, ?_, ?_, ?_, ?_⟩
  · rw [swap_apply_left]; exact hhi
  · intro k hk1 hk2
    rw [swap_apply_other r.1 hi r.2 k (by omega) (by omega)]
    exact h3 k hk1 hk2
  · intro k hk1 hk2
    by_cases hkh : k = hi
    · rw [hkh, swap_apply_right r.1 hi r.2 (by omega)]
      exact not_lt.mp (h4 r.2 (le_refl _) (by omega))
    · rw [swap_apply_other r.1 hi r.2 k hkh (by omega)]
      exact not_lt.mp (h4 k (by omega) (by omega))
  · exact rearranged_trans (rearranged_mono h5 (le_refl lo) (by omega))
      (rearranged_swap r.1 h (le_refl hi) h1 h2)

/-! ## The recursion of `quicksort` -/

theorem quicksortFuel_base {α : Type} (compare : α → α → Int) (fuel : Nat) (a : Int → α)
    (lo hi : Int) (h : ¬ lo < hi) : quicksortFuel compare fuel a lo hi = some a := by
  cases fuel with
  | zero => simp [quicksortFuel, h]
  | succ f => simp [quicksortFuel, h]

theorem quicksortFuel_step {α : Type} (compare : α → α → Int) (fuel : Nat) (a : Int → α)
    (lo hi : Int) (h : lo < hi) :
    quicksortFuel compare (fuel + 1) a lo hi =
      (quicksortFuel compare fuel (partition a lo hi compare).1 lo
        ((partition a lo hi compare).2 - 1)).bind
        (fun a1 => quicksortFuel compare fuel a1 ((partition a lo hi compare).2 + 1) hi) := by
  simp only [quicksortFuel, if_pos h]
  cases quicksortFuel compare fuel (partition a lo hi compare).1 lo
    ((partition a lo hi compare).2 - 1) <;> rfl

theorem quicksortFuel_post {α : Type} (compare : α → α → Int) :
    ∀ (fuel : Nat) (a : Int → α) (lo hi : Int), (hi - lo).toNat ≤ fuel →
      ∃ b, quicksortFuel compare fuel a lo hi = some b ∧ Rearranged a b lo hi ∧
        (StrictOrder compare → SortedSeg compare b lo hi) := by
  intro fuel
  induction fuel with
  | zero =>
    intro a lo hi hf
    have hlh : ¬ lo < hi := by omega
    exact ⟨a, quicksortFuel_base compare 0 a lo hi hlh, rearranged_refl a lo hi,
      fun _ i j h1 h2 h3 => absurd (lt_of_le_of_lt h1 (lt_of_lt_of_le h2 h3)) hlh⟩
  | succ f ih =>
    intro a lo hi hf
    by_cases hlh : lo < hi
    · obtain ⟨hp1, hp2, hp3, hp4, hp5, hp6⟩ := partition_post a lo hi compare (le_of_lt hlh)
      rw [quicksortFuel_step compare f a lo hi hlh]
      generalize partition a lo hi compare = r at hp1 hp2 hp3 hp4 hp5 hp6
      obtain ⟨b1, hb1, hr1, hs1⟩ := ih r.1 lo (r.2 - 1) (by omega)
      obtain ⟨b2, hb2, hr2, hs2⟩ := ih b1 (r.2 + 1) hi (by omega)
      refine ⟨b2, by rw [hb1]; exact hb2, ?_, ?_⟩
      · exact rearranged_trans hp6 (rearranged_trans
          (rearranged_mono hr1 (le_refl lo) (by omega))
          (rearranged_mono hr2 (by omega) (le_refl hi)))
      · intro hord
        have hpiv : b2 r.2 = a hi := by
          rw [rearranged_frame hr2 r.2 (by omega), rearranged_frame hr1 r.2 (by omega)]
          exact hp3
        have hleft : ∀ k, lo ≤ k → k < r.2 → compare (b2 k) (a hi) < 0 := by
          intro k hk1 hk2
          rw [rearranged_frame hr2 k (by omega)]
          obtain ⟨k0, hk3, hk4, hk5⟩ := rearranged_inside hr1 k hk1 (by omega)
          rw [hk5]
          exact hp4 k0 hk3 (by omega)
        have hright : ∀ k, r.2 < k → k ≤ hi → 0 ≤ compare (b2 k) (a hi) := by
          intro k hk1 hk2
          obtain ⟨k0, hk3, hk4, hk5⟩ := rearranged_inside hr2 k (by omega) hk2
          rw [hk5, rearranged_frame hr1 k0 (by omega)]
          exact hp5 k0 (by omega) hk4
        intro i j hi1 hij hj2
        by_cases hjp : j < r.2
        · rw [rearranged_frame hr2 i (by omega), rearranged_frame hr2 j (by omega)]
          exact hs1 hord i j hi1 hij (by omega)
        · by_cases hip : r.2 < i
          · exact hs2 hord i j (by omega) hij hj2
          · by_cases hjeq : j = r.2
            · rw [hjeq, hpiv]
              have hlt := hleft i hi1 (by omega)
              by_contra hneg
              exact hord.irrefl _ (hord.trans _ _ _ (not_le.mp hneg) hlt)
            · by_cases hieq : i = r.2
              · rw [hieq, hpiv]
                exact hright j (by omega) hj2
              · have hlt := hleft i hi1 (by omega)
                have hge := hright j (by omega) hj2
                by_contra hneg
                exact absurd (hord.trans _ _ _ (not_le.mp hneg) hlt) (not_lt.mpr hge)
    · exact ⟨a, quicksortFuel_base compare (f + 1) a lo hi hlh, rearranged_refl a lo hi,
        fun _ i j h1 h2 h3 => absurd (lt_of_le_of_lt h1 (lt_of_lt_of_le h2 h3)) hlh⟩

theorem quicksortFuel_succ {α : Type} (compare : α → α → Int) :
    ∀ (fuel : Nat) (a b : Int → α) (lo hi : Int),
      quicksortFuel compare fuel a lo hi = some b →
      quicksortFuel compare (fuel + 1) a lo hi = some b := by
  intro fuel
  induction fuel with
  | zero =>
    intro a b lo hi h
    by_cases hlh : lo < hi
    · simp [quicksortFuel, hlh] at h
    · rw [quicksortFuel_base compare 0 a lo hi hlh] at h
      rw [quicksortFuel_base compare 1 a lo hi hlh]
      exact h
  | succ f ih =>
    intro a b lo hi h
    by_cases hlh : lo < hi
    · rw [quicksortFuel_step compare f a lo hi hlh] at h
      rw [quicksortFuel_step compare (f + 1) a lo hi hlh]
      cases h1 : quicksortFuel compare f (partition a lo hi compare).1 lo
          ((partition a lo hi compare).2 - 1) with
      | none => rw [h1] at h; simp at h
      | some a1 =>
        rw [h1] at h
        rw [ih _ a1 _ _ h1]
        exact ih _ b _ _ h
    · rw [quicksortFuel_base compare (f + 1) a lo hi hlh] at h
      rw [quicksortFuel_base compare (f + 2) a lo hi hlh]
      exact h

theorem quicksortFuel_mono {α : Type} (compare : α → α → Int) (a b : Int → α) (lo hi : Int)
    (fuel extra : Nat) (h : quicksortFuel compare fuel a lo hi = some b) :
    quicksortFuel compare (fuel + extra) a lo hi = some b := by
  induction extra with
  | zero => exact h
  | succ e ih => exact quicksortFuel_succ compare (fuel + e) a b lo hi ih

theorem quicksortFuel_eq {α : Type} (compare : α → α → Int) (a : Int → α) (lo hi : Int)
    (extra : Nat) :
    quicksortFuel compare ((hi - lo).toNat + extra) a lo hi = some (quicksort a lo hi compare) := by
  obtain ⟨b, hb, _, _⟩ := quicksortFuel_post compare (hi - lo).toNat a lo hi (le_refl _)
  have hq : quicksort a lo hi compare = b := by
    unfold quicksort
    rw [hb]
    rfl
  rw [hq]
  exact quicksortFuel_mono compare a b lo hi _ extra hb

theorem quicksort_post {α : Type} (compare : α → α → Int) (a : Int → α) (lo hi : Int) :
    Rearranged a (quicksort a lo hi compare) lo hi ∧
      (StrictOrder compare → SortedSeg compare (quicksort a lo hi compare) lo hi) := by
  obtain ⟨b, hb, h1, h2⟩ := quicksortFuel_post compare (hi - lo).toNat a lo hi (le_refl _)
  have hq : quicksort a lo hi compare = b := by
    unfold quicksort
    rw [hb]
    rfl
  rw [hq]
  exact ⟨h1, h2⟩

theorem segment_perm_of_rearranged {α : Type} {a b : Int → α} {lo hi : Int}
    (h : Rearranged a b lo hi) :
    (segment b lo (hi + 1 - lo).toNat).Perm (segment a lo (hi + 1 - lo).toNat) := by
  by_cases hle : lo ≤ hi + 1
  · exact rearranged_perm (hi + 1 - lo).toNat h (by omega)
  · have hz : (hi + 1 - lo).toNat = 0 := by omega
    rw [hz]
    exact List.Perm.refl _

theorem quicksortFuel_increasing {α : Type} (compare : α → α → Int) :
    ∀ (fuel : Nat) (a : Int → α) (lo hi : Int), (hi - lo).toNat ≤ fuel →
      (∀ i j, lo ≤ i → i < j → j ≤ hi → compare (a i) (a j) < 0) →
      quicksortFuel compare fuel a lo hi = some a := by
  intro fuel
  induction fuel with
  | zero =>
    intro a lo hi hf _
    exact quicksortFuel_base compare 0 a lo hi (by omega)
  | succ f ih =>
    intro a lo hi hf hinc
    by_cases hlh : lo < hi
    · have hn : lo + ((hi - lo).toNat : Int) = hi := by omega
      have hloop : partitionLoop compare (a hi) (hi - lo).toNat lo lo a = (a, hi) := by
        rw [partitionLoop_all_less compare (a hi) (hi - lo).toNat lo a
          (fun k hk1 hk2 => hinc k hi hk1 (by omega) (le_refl hi)), hn]
      have hpart : partition a lo hi compare = (a, hi) := by
        simp only [partition, hloop, swap_self]
      rw [quicksortFuel_step compare f a lo hi hlh, hpart]
      simp only
      rw [ih a lo (hi - 1) (by omega) (fun i j h1 h2 h3 => hinc i j h1 h2 (by omega))]
      exact quicksortFuel_base compare f a (hi + 1) hi (by omega)
    · exact quicksortFuel_base compare (f + 1) a lo hi hlh

theorem quicksort_increasing {α : Type} (compare : α → α → Int) (a : Int → α) (lo hi : Int)
    (hinc : ∀ i j, lo ≤ i → i < j → j ≤ hi → compare (a i) (a j) < 0) :
    quicksort a lo hi compare = a := by
  unfold quicksort
  rw [quicksortFuel_increasing compare (hi - lo).toNat a lo hi (le_refl _) hinc]
  rfl

theorem natCompare_total : TotalOrder natCompare where
  irrefl := by intro a; simp [natCompare]
  trans := by intro a b c h1 h2; simp only [natCompare] at h1 h2 ⊢; omega
  total := by intro a b; simp only [natCompare]; omega

/-! ## Claims about the sort -/

/-- C12 (sort correctness): for every array, every `lo` and `hi` and every
comparator whose `compare x y < 0` is irreflexive and transitive, after
`quicksort(a, lo, hi, compare)` the segment `a[lo..hi]` is in non-decreasing
order, it is a permutation of the original segment, and no cell outside
`lo .. hi` has changed. -/
theorem quicksort_sorted_perm {α : Type} (compare : α → α → Int) (hord : StrictOrder compare)
    (a : Int → α) (lo hi : Int) :
    SortedSeg compare (quicksort a lo hi compare) lo hi ∧
      (segment (quicksort a lo hi compare) lo (hi + 1 - lo).toNat).Perm
        (segment a lo (hi + 1 - lo).toNat) ∧
      ∀ k, k < lo ∨ hi < k → quicksort a lo hi compare k = a k := by
  obtain ⟨h1, h2⟩ := quicksort_post compare a lo hi
  exact ⟨h2 hord, segment_perm_of_rearranged h1, fun k hk => rearranged_frame h1 k hk⟩

/-- Witness of C12: `[3, 1, 2]` with the numeric comparator becomes
`[1, 2, 3]`. -/
theorem quicksort_sorted_perm_witness :
    segment (quicksort (ofList 0 [3, 1, 2]) 0 2 natCompare) 0 3 = [1, 2, 3] ∧
      SortedSeg natCompare (quicksort (ofList 0 [3, 1, 2]) 0 2 natCompare) 0 2 ∧
      (segment (quicksort (ofList 0 [3, 1, 2]) 0 2 natCompare) 0 (2 + 1 - 0 : Int).toNat).Perm
        (segment (ofList 0 [3, 1, 2]) 0 (2 + 1 - 0 : Int).toNat) ∧
      ∀ k, k < 0 ∨ 2 < k →
        quicksort (ofList 0 [3, 1, 2]) 0 2 natCompare k = ofList 0 [3, 1, 2] k :=
  ⟨by decide,
    quicksort_sorted_perm natCompare natCompare_total.toStrictOrder (ofList 0 [3, 1, 2]) 0 2⟩

/-- C13 as stated fails: the segment `[1, 11]` is in non-decreasing order under
the comparator on last digits (its two references compare equal), and
`quicksort` exchanges them; a second call exchanges them back, so sorting is
not idempotent here either. -/
theorem quicksort_reorders_equal_keys :
    List.Pairwise (fun x y => 0 ≤ lastDigitCompare y x) (segment (ofList 0 [1, 11]) 0 2) ∧
      segment (ofList 0 [1, 11]) 0 2 = [1, 11] ∧
      segment (quicksort (ofList 0 [1, 11]) 0 1 lastDigitCompare) 0 2 = [11, 1] ∧
      segment (quicksort (quicksort (ofList 0 [1, 11]) 0 1 lastDigitCompare) 0 1
        lastDigitCompare) 0 2 = [1, 11] := by
  decide

/-- C13 amended: when the segment `a[lo..hi]` is strictly increasing
(`compare(a[i], a[j]) < 0` for `lo <= i < j <= hi`, which holds for segments of
0 or 1 elements), `quicksort` returns the array unchanged; and under a strict
total order, on a segment whose elements pairwise compare unequal, sorting a
second time changes nothing. -/
theorem quicksort_increasing_unchanged {α : Type} (compare : α → α → Int) (a : Int → α)
    (lo hi : Int) :
    ((∀ i j, lo ≤ i → i < j → j ≤ hi → compare (a i) (a j) < 0) →
        quicksort a lo hi compare = a) ∧
      (TotalOrder compare →
        (∀ i j, lo ≤ i → i ≤ hi → lo ≤ j → j ≤ hi → i ≠ j → compare (a i) (a j) ≠ 0) →
        quicksort (quicksort a lo hi compare) lo hi compare = quicksort a lo hi compare) := by
  refine ⟨quicksort_increasing compare a lo hi, ?_⟩
  intro htot hne
  obtain ⟨hre, hsorted⟩ := quicksort_post compare a lo hi
  have hs := hsorted htot.toStrictOrder
  obtain ⟨σ, hf, hb⟩ := hre
  apply quicksort_increasing
  intro i j h1 h2 h3
  have hi' := perm_maps_inside σ lo hi hf i h1 (by omega)
  have hj' := perm_maps_inside σ lo hi hf j (by omega) h3
  have hij : σ i ≠ σ j := fun h => absurd (σ.injective h) (by omega)
  have hne' : compare (quicksort a lo hi compare i) (quicksort a lo hi compare j) ≠ 0 := by
    rw [hb]
    exact hne (σ i) (σ j) hi'.1 hi'.2 hj'.1 hj'.2 hij
  have hge := hs i j h1 h2 h3
  rcases htot.total (quicksort a lo hi compare i) (quicksort a lo hi compare j) with h | h | h
  · exact h
  · exact absurd h hne'
  · exact absurd h (not_lt.mpr hge)

/-- Witness of C13 amended: `[1, 2, 3]` is returned unchanged, and sorting
`[3, 1, 2]` twice gives what sorting it once gives. -/
theorem quicksort_increasing_unchanged_witness :
    quicksort (ofList 0 [1, 2, 3]) 0 2 natCompare = ofList 0 [1, 2, 3] ∧
      quicksort (quicksort (ofList 0 [3, 1, 2]) 0 2 natCompare) 0 2 natCompare =
        quicksort (ofList 0 [3, 1, 2]) 0 2 natCompare :=
  ⟨(quicksort_increasing_unchanged natCompare (ofList 0 [1, 2, 3]) 0 2).1 (by
      intro i j h1 h2 h3
      have hi : i = 0 ∨ i = 1 := by omega
      have hj : j = 1 ∨ j = 2 := by omega
      rcases hi with rfl | rfl <;> rcases hj with rfl | rfl <;> first | decide | omega),
    (quicksort_increasing_unchanged natCompare (ofList 0 [3, 1, 2]) 0 2).2 natCompare_total (by
      intro i j h1 h2 h3 h4 h5
      have hi : i = 0 ∨ i = 1 ∨ i = 2 := by omega
      have hj : j = 0 ∨ j = 1 ∨ j = 2 := by omega
      rcases hi with rfl | rfl | rfl <;> rcases hj with rfl | rfl | rfl <;>
        first | decide | exact absurd rfl h5)⟩

/-- C14 (partition postcondition): for every array, every `lo <= hi` and every
comparator, `partition` returns `p` with `lo <= p <= hi`; afterwards `a[p]` is
the original `a[hi]`, every element at an index in `[lo, p)` compares below the
pivot, every element at an index in `(p, hi]` compares not below it, the
segment `a[lo..hi]` is a permutation of its original contents and every cell
outside `lo .. hi` is unchanged. -/
theorem partition_spec {α : Type} (a : Int → α) (lo hi : Int) (compare : α → α → Int)
    (h : lo ≤ hi) :
    lo ≤ (partition a lo hi compare).2 ∧ (partition a lo hi compare).2 ≤ hi ∧
      (partition a lo hi compare).1 (partition a lo hi compare).2 = a hi ∧
      (∀ k, lo ≤ k → k < (partition a lo hi compare).2 →
        compare ((partition a lo hi compare).1 k) (a hi) < 0) ∧
      (∀ k, (partition a lo hi compare).2 < k → k ≤ hi →
        0 ≤ compare ((partition a lo hi compare).1 k) (a hi)) ∧
      (segment (partition a lo hi compare).1 lo (hi + 1 - lo).toNat).Perm
        (segment a lo (hi + 1 - lo).toNat) ∧
      ∀ k, k < lo ∨ hi < k → (partition a lo hi compare).1 k = a k := by
  obtain ⟨h1, h2, h3, h4, h5, h6⟩ := partition_post a lo hi compare h
  exact ⟨h1, h2, h3, h4, h5, segment_perm_of_rearranged h6,
    fun k hk => rearranged_frame h6 k hk⟩

/-- Witness of C14: `partition` of `[7, 2, 9, 4, 5]` around the pivot 5 gives
`[2, 4, 5, 7, 9]` and returns 2. -/
theorem partition_spec_witness :
    (partition (ofList 0 [7, 2, 9, 4, 5]) 0 4 natCompare).2 = 2 ∧
      segment (partition (ofList 0 [7, 2, 9, 4, 5]) 0 4 natCompare).1 0 5 = [2, 4, 5, 7, 9] ∧
      (0 : Int) ≤ (partition (ofList 0 [7, 2, 9, 4, 5]) 0 4 natCompare).2 ∧
      (partition (ofList 0 [7, 2, 9, 4, 5]) 0 4 natCompare).2 ≤ 4 :=
  have h := partition_spec (ofList 0 [7, 2, 9, 4, 5]) 0 4 natCompare (by decide)
  ⟨by decide, by decide, h.1, h.2.1⟩

/-- C19 (sort termination): for every array, every `lo` and `hi` and every
comparator, `quicksort` returns: with `lo >= hi` it returns at once without a
recursive call; with `lo < hi` the pivot location `p` satisfies `lo <= p <= hi`,
so both recursive calls get a segment shorter than `hi - lo + 1`; and a
recursion depth of `hi - lo` is never exceeded. -/
theorem quicksort_terminates {α : Type} (compare : α → α → Int) (a : Int → α) (lo hi : Int) :
    (¬ lo < hi → quicksortFuel compare 0 a lo hi = some a) ∧
      (lo < hi → lo ≤ (partition a lo hi compare).2 ∧ (partition a lo hi compare).2 ≤ hi ∧
        ((partition a lo hi compare).2 - 1) - lo + 1 < hi - lo + 1 ∧
        hi - ((partition a lo hi compare).2 + 1) + 1 < hi - lo + 1) ∧
      ∀ extra, quicksortFuel compare ((hi - lo).toNat + extra) a lo hi =
        some (quicksort a lo hi compare) := by
  refine ⟨quicksortFuel_base compare 0 a lo hi, ?_, quicksortFuel_eq compare a lo hi⟩
  intro hlh
  obtain ⟨h1, h2, _⟩ := partition_post a lo hi compare (le_of_lt hlh)
  exact ⟨h1, h2, by omega, by omega⟩

/-- Witness of C19: the base case on a one-element segment, and the pivot
bounds on `[3, 1, 2]` with a comparator that is not an order. -/
theorem quicksort_terminates_witness :
    quicksortFuel alwaysLess 0 (ofList 0 [3, 1, 2]) 2 2 = some (ofList 0 [3, 1, 2]) ∧
      ((0 : Int) ≤ (partition (ofList 0 [3, 1, 2]) 0 2 alwaysLess).2 ∧
        (partition (ofList 0 [3, 1, 2]) 0 2 alwaysLess).2 ≤ 2 ∧
        ((partition (ofList 0 [3, 1, 2]) 0 2 alwaysLess).2 - 1) - 0 + 1 < (2 : Int) - 0 + 1 ∧
        2 - ((partition (ofList 0 [3, 1, 2]) 0 2 alwaysLess).2 + 1) + 1 < (2 : Int) - 0 + 1) :=
  ⟨(quicksort_terminates alwaysLess (ofList 0 [3, 1, 2]) 2 2).1 (by decide),
    (quicksort_terminates alwaysLess (ofList 0 [3, 1, 2]) 0 2).2.1 (by decide)⟩

/-! ## The snapshot -/

theorem filterMap_length_eq_filter {β γ : Type} (p : β → Prop) [DecidablePred p] (f : β → γ)
    (l : List β) :
    (l.filterMap (fun i => if p i then some (f i) else none)).length =
      (l.filter (fun i => decide (p i))).length := by
  induction l with
  | nil => rfl
  | cons x xs ih =>
    by_cases hx : p x
    · simp [List.filterMap_cons, List.filter_cons, hx, ih]
    · simp [List.filterMap_cons, List.filter_cons, hx, ih]

theorem compact_length {α : Type} (sp : SET α) (junk : α) :
    (compact sp junk).length = filledCount sp := by
  unfold compact filledCount
  exact filterMap_length_eq_filter _ _ _

theorem mem_compact {α : Type} (sp : SET α) (junk : α)
    (hw : ∀ s, s < sp.length → sp.flags.getD s empty = filled →
      ∃ r, sp.data.getD s none = some r) (r : α) :
    r ∈ compact sp junk ↔ ∃ s, Holds sp s r := by
  unfold compact Holds
  simp only [List.mem_filterMap, List.mem_range]
  constructor
  · rintro ⟨s, hs, h⟩
    by_cases hf : sp.flags.getD s empty = filled
    · obtain ⟨r0, hr0⟩ := hw s hs hf
      rw [if_pos hf, hr0] at h
      simp only [Option.getD_some, Option.some.injEq] at h
      exact ⟨s, hs, hf, by rw [hr0, h]⟩
    · rw [if_neg hf] at h
      exact absurd h (by simp)
  · rintro ⟨s, hs, hf, hd⟩
    exact ⟨s, hs, by rw [if_pos hf, hd]; rfl⟩

theorem segment_length {α : Type} (a : Int → α) (lo : Int) (n : Nat) :
    (segment a lo n).length = n := by
  simp [segment]

theorem segment_ofList {α : Type} (junk : α) (l : List α) :
    segment (ofList junk l) 0 l.length = l := by
  apply List.ext_getElem
  · simp [segment]
  · intro i h1 h2
    simp only [segment, ofList, List.getElem_map, List.getElem_range]
    have h0 : (0 : Int) ≤ 0 + (i : Int) := by omega
    rw [if_pos h0]
    have ht : (0 + (i : Int)).toNat = i := by omega
    rw [ht, List.getD_eq_getElem _ _ h2]

theorem segment_pairwise {α : Type} (compare : α → α → Int) (a : Int → α) (n : Nat)
    (h : SortedSeg compare a 0 ((n : Int) - 1)) :
    (segment a 0 n).Pairwise (fun x y => 0 ≤ compare y x) := by
  unfold segment
  rw [List.pairwise_map]
  refine List.Pairwise.imp_of_mem ?_ (List.pairwise_lt_range n)
  intro i j hi hj hij
  have hj2 := List.mem_range.mp hj
  exact h (0 + (i : Int)) (0 + (j : Int)) (by omega) (by omega) (by omega)

theorem getElements_post {α : Type} (sp : SET α) (junk : α)
    (hc : sp.count = (filledCount sp : Int)) :
    (getElements sp junk).length = filledCount sp ∧
      (getElements sp junk).Perm (compact sp junk) ∧
      (StrictOrder sp.compare →
        (getElements sp junk).Pairwise (fun x y => 0 ≤ sp.compare y x)) := by
  have hn : sp.count.toNat = (compact sp junk).length := by
    rw [compact_length, hc]; simp
  have hhi : sp.count - 1 = ((compact sp junk).length : Int) - 1 := by
    rw [compact_length, hc]
  obtain ⟨hre, hsorted⟩ :=
    quicksort_post sp.compare (ofList junk (compact sp junk)) 0 (sp.count - 1)
  unfold getElements
  simp only
  refine ⟨?_, ?_, ?_⟩
  · rw [segment_length, hn, compact_length]
  · have hp := rearranged_perm (compact sp junk).length hre (by rw [hhi]; omega)
    rw [segment_ofList] at hp
    rw [hn]
    exact hp
  · intro hord
    rw [hn]
    apply segment_pairwise
    rw [← hhi]
    exact hsorted hord

theorem strictly_sorted_of_unequal {α : Type} (compare : α → α → Int)
    (htot : TotalOrder compare) (l : List α)
    (hs : l.Pairwise (fun x y => 0 ≤ compare y x))
    (hne : l.Pairwise (fun x y => compare x y ≠ 0 ∧ compare y x ≠ 0)) :
    l.Pairwise (fun x y => compare x y < 0) := by
  refine (hs.and hne).imp ?_
  intro x y h
  rcases htot.total x y with h1 | h1 | h1
  · exact h1
  · exact absurd h1 h.2.1
  · exact absurd h1 (not_lt.mpr h.1)

/-- C11 (snapshot): in every state whose `count` equals the number of `filled`
slots, with a comparator that is a strict order, `getElements` returns an array
of length `count` that is a permutation of the slot-order compaction of the
`filled` slots and is in non-decreasing order; when every `filled` slot holds a
written reference, its members are exactly the references held in `filled`
slots. -/
theorem getElements_sorted_perm {α : Type} (sp : SET α) (junk : α)
    (hc : sp.count = (filledCount sp : Int)) (hord : StrictOrder sp.compare) :
    ((getElements sp junk).length : Int) = sp.count ∧
      (getElements sp junk).Perm (compact sp junk) ∧
      (getElements sp junk).Pairwise (fun x y => 0 ≤ sp.compare y x) ∧
      ((∀ s, s < sp.length → sp.flags.getD s empty = filled →
          ∃ r, sp.data.getD s none = some r) →
        ∀ r, r ∈ getElements sp junk ↔ ∃ s, Holds sp s r) := by
  obtain ⟨h1, h2, h3⟩ := getElements_post sp junk hc
  refine ⟨by rw [h1, hc], h2, h3 hord, ?_⟩
  intro hw r
  rw [h2.mem_iff]
  exact mem_compact sp junk hw r

/-- Witness of C11: the set holding 5, 3, 9 and 1 yields `[1, 3, 5, 9]`. -/
theorem getElements_sorted_perm_witness :
    getElements smallSet 0 = [1, 3, 5, 9] ∧ compact smallSet 0 = [5, 1, 3, 9] ∧
      ((getElements smallSet 0).length : Int) = smallSet.count ∧
      (getElements smallSet 0).Perm (compact smallSet 0) ∧
      (getElements smallSet 0).Pairwise (fun x y => 0 ≤ smallSet.compare y x) :=
  have h := getElements_sorted_perm smallSet 0 (by decide) natCompare_total.toStrictOrder
  ⟨by decide, by decide, h.1, h.2.1, h.2.2.1⟩

/-- C20 (snapshot independent of history): two states, each with `count` equal
to its number of `filled` slots, that use the same strict total order and whose
`filled` slots hold the same collection of pairwise unequal references, get
identical arrays from `getElements`, whatever their capacities, hash functions
and histories. -/
theorem getElements_history_independent {α : Type} (compare : α → α → Int)
    (htot : TotalOrder compare) (sp1 sp2 : SET α) (junk1 junk2 : α)
    (hc1 : sp1.count = (filledCount sp1 : Int)) (hc2 : sp2.count = (filledCount sp2 : Int))
    (hcmp1 : sp1.compare = compare) (hcmp2 : sp2.compare = compare)
    (hsame : (compact sp1 junk1).Perm (compact sp2 junk2))
    (hne : (compact sp1 junk1).Pairwise (fun x y => compare x y ≠ 0 ∧ compare y x ≠ 0)) :
    getElements sp1 junk1 = getElements sp2 junk2 := by
  obtain ⟨_, hp1, hs1⟩ := getElements_post sp1 junk1 hc1
  obtain ⟨_, hp2, hs2⟩ := getElements_post sp2 junk2 hc2
  rw [hcmp1] at hs1
  rw [hcmp2] at hs2
  have hsym : ∀ {x y : α}, (compare x y ≠ 0 ∧ compare y x ≠ 0) →
      (compare y x ≠ 0 ∧ compare x y ≠ 0) := fun h => ⟨h.2, h.1⟩
  have hne1 := (List.Perm.pairwise_iff hsym hp1).mpr hne
  have hne2 := (List.Perm.pairwise_iff hsym (hp2.trans hsame.symm)).mpr hne
  have hst1 := strictly_sorted_of_unequal compare htot _ (hs1 htot.toStrictOrder) hne1
  have hst2 := strictly_sorted_of_unequal compare htot _ (hs2 htot.toStrictOrder) hne2
  haveI : IsAntisymm α (fun x y => compare x y < 0) :=
    ⟨fun x y h1 h2 => absurd (htot.trans x y x h1 h2) (htot.irrefl x)⟩
  exact List.eq_of_perm_of_sorted (hp1.trans (hsame.trans hp2.symm)) hst1 hst2

/-- Witness of C20: a table of capacity 5 with the identity hash and a table of
capacity 7 with the last-digit hash and a removal in its history both hold 1,
3, 5, 9 and return the same array. -/
theorem getElements_history_independent_witness :
    compact smallSet 0 = [5, 1, 3, 9] ∧ compact otherHistory 7 = [1, 9, 3, 5] ∧
      getElements smallSet 0 = getElements otherHistory 7 :=
  ⟨by decide, by decide,
    getElements_history_independent natCompare natCompare_total smallSet otherHistory 0 7
      (by decide) (by decide) rfl rfl (by decide) (by decide)⟩

/-! ## Tombstone reuse in the probe loop -/

theorem searchLoop_to_empty {α : Type} (sp : SET α) (elt : α) (fnd : Bool) (m : Nat)
    (hempty : sp.flags.getD (probe sp elt m) empty = empty)
    (hpre : ∀ k, k < m → sp.flags.getD (probe sp elt k) empty ≠ empty)
    (hnomatch : ∀ k, k < m → ¬ (sp.flags.getD (probe sp elt k) empty = filled ∧
      matchesAt sp elt (probe sp elt k) = true)) :
    ∀ (n i : Nat) (x : Int), i + n = sp.length → i ≤ m → m < sp.length →
      ((x = -1 ∧ ∀ k, k < i → sp.flags.getD (probe sp elt k) empty ≠ deleted) ∨
        ∃ j, j < i ∧ x = (probe sp elt j : Int) ∧
          sp.flags.getD (probe sp elt j) empty = deleted ∧
          ∀ k, k < j → sp.flags.getD (probe sp elt k) empty ≠ deleted) →
      (searchLoop sp elt fnd n i x).2 = false ∧
      ((∃ j, j < m ∧ sp.flags.getD (probe sp elt j) empty = deleted ∧
          (∀ k, k < j → sp.flags.getD (probe sp elt k) empty ≠ deleted) ∧
          (searchLoop sp elt fnd n i x).1 = (probe sp elt j : Int)) ∨
        ((∀ j, j < m → sp.flags.getD (probe sp elt j) empty ≠ deleted) ∧
          (searchLoop sp elt fnd n i x).1 = (probe sp elt m : Int))) := by
  intro n
  induction n with
  | zero => intro i x hin hle hm _; omega
  | succ n ih =>
    intro i x hin hle hm hx
    simp only [searchLoop]
    rcases Nat.lt_or_eq_of_le hle with hlt | heq
    · rw [if_neg (hpre i hlt), if_neg (hnomatch i hlt)]
      split_ifs with h3
      · refine ih (i + 1) _ (by omega) (by omega) hm (Or.inr ⟨i, by omega, rfl, h3.1, ?_⟩)
        rcases hx with ⟨_, hx2⟩ | ⟨j, _, hxj, _, _⟩
        · exact hx2
        · rw [hxj] at h3; omega
      · refine ih (i + 1) x (by omega) (by omega) hm ?_
        rcases hx with ⟨hx1, hx2⟩ | ⟨j, hj, hxj, hdel, hfirst⟩
        · refine Or.inl ⟨hx1, ?_⟩
          intro k hk
          rcases Nat.lt_succ_iff_lt_or_eq.mp hk with hk1 | hk1
          · exact hx2 k hk1
          · rw [hk1]; exact fun hd => h3 ⟨hd, hx1⟩
        · exact Or.inr ⟨j, by omega, hxj, hdel, hfirst⟩
    · subst heq
      rw [if_pos hempty]
      rcases hx with ⟨hx1, hx2⟩ | ⟨j, hj, hxj, hdel, hfirst⟩
      · refine ⟨rfl, Or.inr ⟨hx2, ?_⟩⟩
        simp [hx1]
      · refine ⟨rfl, Or.inl ⟨j, hj, hdel, hfirst, ?_⟩⟩
        have hxne : x ≠ -1 := by rw [hxj]; omega
        simp [hxne, hxj]

theorem searchLoop_to_match {α : Type} (sp : SET α) (elt : α) (fnd : Bool) (m : Nat)
    (hfilled : sp.flags.getD (probe sp elt m) empty = filled)
    (hmatch : matchesAt sp elt (probe sp elt m) = true)
    (hpre : ∀ k, k < m → sp.flags.getD (probe sp elt k) empty ≠ empty) :
    ∀ (n i : Nat) (x : Int), i + n = sp.length → i ≤ m → m < sp.length →
      (searchLoop sp elt fnd n i x).2 = true ∧
      ∃ j, j ≤ m ∧ (searchLoop sp elt fnd n i x).1 = (probe sp elt j : Int) ∧
        sp.flags.getD (probe sp elt j) empty = filled ∧
        matchesAt sp elt (probe sp elt j) = true := by
  intro n
  induction n with
  | zero => intro i x hin hle hm; omega
  | succ n ih =>
    intro i x hin hle hm
    simp only [searchLoop]
    rcases Nat.lt_or_eq_of_le hle with hlt | heq
    · rw [if_neg (hpre i hlt)]
      split_ifs with h2 h3
      · exact ⟨rfl, i, hle, rfl, h2.1, h2.2⟩
      · exact ih (i + 1) _ (by omega) (by omega) hm
      · exact ih (i + 1) x (by omega) (by omega) hm
    · subst heq
      have hne : ¬ sp.flags.getD (probe sp elt i) empty = empty := by rw [hfilled]; decide
      rw [if_neg hne, if_pos ⟨hfilled, hmatch⟩]
      exact ⟨rfl, i, le_refl i, rfl, hfilled, hmatch⟩

/-- C15 (tombstone reuse in the probe): in every state and for every element,
let attempt `m` be preceded on the probe path by non-`empty` slots only.  If
slot `m` is `empty` and no earlier attempt met a `filled` slot that compares
equal, `search` sets `*found = false` and returns the first `deleted` slot met
before attempt `m` when there is one, and the `empty` slot otherwise.  If slot
`m` is a `filled` slot that compares equal, `search` sets `*found = true` and
returns a `filled` slot that compares equal, never a tombstone. -/
theorem search_tombstone_reuse {α : Type} (sp : SET α) (elt : α) (fnd : Bool) (m : Nat)
    (hm : m < sp.length)
    (hpre : ∀ k, k < m → sp.flags.getD (probe sp elt k) empty ≠ empty) :
    (sp.flags.getD (probe sp elt m) empty = empty →
      (∀ k, k < m → ¬ (sp.flags.getD (probe sp elt k) empty = filled ∧
        matchesAt sp elt (probe sp elt k) = true)) →
      (search sp elt fnd).2 = false ∧
      ((∃ j, j < m ∧ sp.flags.getD (probe sp elt j) empty = deleted ∧
          (∀ k, k < j → sp.flags.getD (probe sp elt k) empty ≠ deleted) ∧
          (search sp elt fnd).1 = (probe sp elt j : Int)) ∨
        ((∀ j, j < m → sp.flags.getD (probe sp elt j) empty ≠ deleted) ∧
          (search sp elt fnd).1 = (probe sp elt m : Int)))) ∧
    (sp.flags.getD (probe sp elt m) empty = filled →
      matchesAt sp elt (probe sp elt m) = true →
      (search sp elt fnd).2 = true ∧
      ∃ j, j ≤ m ∧ (search sp elt fnd).1 = (probe sp elt j : Int) ∧
        sp.flags.getD (probe sp elt j) empty = filled ∧
        matchesAt sp elt (probe sp elt j) = true) := by
  constructor
  · intro hempty hnomatch
    exact searchLoop_to_empty sp elt fnd m hempty hpre hnomatch sp.length 0 (-1) (by omega)
      (Nat.zero_le m) hm (Or.inl ⟨rfl, fun k hk => absurd hk (Nat.not_lt_zero k)⟩)
  · intro hfilled hmatch
    exact searchLoop_to_match sp elt fnd m hfilled hmatch hpre sp.length 0 (-1) (by omega)
      (Nat.zero_le m) hm

/-- Witness of C15: with slot 0 a tombstone, slot 1 holding 6 and slot 2 empty,
`search 9` returns the tombstone 0 with `*found = false`, and `search 6`
returns slot 1 with `*found = true`. -/
theorem search_tombstone_reuse_witness :
    search tombstoneThenSix 9 true = (0, false) ∧
      search tombstoneThenSix 6 false = (1, true) ∧
      (search tombstoneThenSix 9 true).2 = false ∧
      (search tombstoneThenSix 6 false).2 = true :=
  ⟨by decide, by decide,
    ((search_tombstone_reuse tombstoneThenSix 9 true 2 (by decide) (by decide)).1
      (by decide) (by decide)).1,
    ((search_tombstone_reuse tombstoneThenSix 6 false 1 (by decide) (by decide)).2
      (by decide) (by decide)).1⟩

/-! ## More runs on which the probe loop runs out -/

/-- C16 (probe failure checked before use), evaluated on runs that break it:
on the full table of capacity 1 holding 7, `search 9` returns `-1` with
`*found` still true; `findElement 9` then loads `data[-1]` and
`removeElement 9` stores to `flags[-1]` and decrements `count` to 0 although 7
is still stored.  On a fresh table of capacity 0 `findElement` loads `data[-1]`
as well. -/
theorem callers_use_failure_index :
    Reachable 1 natCompare natHash fullSingle ∧
      search fullSingle 9 true = (-1, true) ∧
      findElement fullSingle 9 = Ptr.invalid (-1) ∧
      (removeElement fullSingle 9).count = 0 ∧
      filledCount (removeElement fullSingle 9) = 1 ∧
      search (createSet 0 natCompare natHash) 9 true = (-1, true) ∧
      findElement (createSet 0 natCompare natHash) 9 = Ptr.invalid (-1) :=
  ⟨Reachable.add 7 Reachable.create,
    by decide, by decide, by decide, by decide, by decide, by decide⟩

/-- C17 (no probe exhaustion below capacity), evaluated on runs that break it:
with both slots of a capacity-2 table tombstones, `count = 0 < 2` and
`search 3` runs out and returns `-1`; and in the capacity-3 table holding 3 and
4, `count = 2 < 3` and `search 4294967295` runs out although slot 2 is
`empty`. -/
theorem search_exhausted_below_capacity :
    Reachable 2 natCompare natHash twoTombstones ∧
      twoTombstones.count = 0 ∧ twoTombstones.length = 2 ∧
      search twoTombstones 3 true = (-1, true) ∧
      search twoTombstones 3 false = (-1, false) ∧
      Reachable 3 natCompare natHash wrappedInsert ∧
      wrappedInsert.count = 2 ∧ wrappedInsert.length = 3 ∧
      wrappedInsert.flags = [filled, filled, empty] ∧
      search wrappedInsert 4294967295 false = (-1, false) :=
  ⟨Reachable.remove 2 (Reachable.remove 1 (Reachable.add 2 (Reachable.add 1 Reachable.create))),
    by decide, by decide, by decide, by decide,
    Reachable.add 4294967295 (Reachable.add 4 (Reachable.add 3 Reachable.create)),
    by decide, by decide, by decide, by decide⟩

/-- C18 (probe sequence arithmetic), evaluated where it fails: with capacity 3
and hash value `2 ^ 32 - 1`, attempt 1 examines slot 0 while
`((h mod capacity) + 1) mod capacity` is 1; the three attempts examine the
slots 0, 0, 1 and never slot 2. -/
theorem probe_wraps_at_word_size :
    natHash 4294967295 < 4294967296 ∧
      probe (createSet 3 natCompare natHash) 4294967295 1 = 0 ∧
      (natHash 4294967295 % 3 + 1) % 3 = 1 ∧
      (List.range 3).map (probe (createSet 3 natCompare natHash) 4294967295) = [0, 0, 1] := by
  decide

end Table
